import Mathlib

/-!
# Verification of the necromancer.nvim core

A shallow embedding of the core of the necromancer plugin manager
(TypeScript sources under `src/`), together with theorems settling the
behavioural claims about it.

Conventions of the embedding:
* JavaScript `Map` objects are modelled by insertion-ordered association
  lists (`JsMap`), with `set` replacing in place and iteration in list
  order, exactly as ECMAScript specifies.
* Thrown exceptions are modelled by `Except` results; the error classes
  `ValidationError` / `GitError` / `ConfigError` become constructors of
  `NecroError`, each carrying its message string.
* The filesystem and the external `git` binary are modelled by an oracle
  state `GitWorld`; every clone / checkout / rm / rev-parse performed is
  recorded in an operation log.
* JavaScript strings are modelled by Lean `String`; the test inputs used
  here are ASCII, where UTF-16 code units and Lean characters agree.
* Timestamps (`new Date().toISOString()`) are abstracted as the constant
  `GitWorld.now`, since no verified claim depends on their value.
-/

namespace Necromancer

/-! ## JavaScript `Map` model -/

/-- Insertion-ordered association list modelling a JavaScript `Map` with
string keys.  Iterating the list corresponds to iterating the `Map`. -/
abbrev JsMap (α : Type) := List (String × α)

/-- `Map.get`: value of the first (unique) binding of `k`, if any. -/
def mapGet {α : Type} : JsMap α → String → Option α
  | [], _ => none
  | (k', v') :: rest, k => if k' = k then some v' else mapGet rest k

/-- `Map.set`: replace the binding of `k` in place, or append a new one,
preserving insertion order as JavaScript `Map.set` does. -/
def mapSet {α : Type} : JsMap α → String → α → JsMap α
  | [], k, v => [(k, v)]
  | (k', v') :: rest, k, v =>
    if k' = k then (k, v) :: rest else (k', v') :: mapSet rest k v

/-- `Map.has`. -/
def mapHas {α : Type} (m : JsMap α) (k : String) : Bool :=
  (mapGet m k).isSome

/-! ## Data model (`src/models/plugin.ts`, `src/models/config-file.ts`,
`src/models/lockfile.ts`)

`PluginDefinition.dependencies` is an `Option` because the TypeScript
field is optional: `none` models an absent field, `some l` a present
array `l` (the code guards every use with `if (plugin.dependencies)`,
and an empty array iterates zero times, so `none` and `some []` behave
identically, as the spec requires). -/

structure PluginDefinition where
  name : String
  repo : String
  commit : String
  dependencies : Option (List String) := none
deriving Repr, DecidableEq

/-- The dependency list actually iterated by the code: absent and empty
lists both contribute zero edges. -/
def depsOf (p : PluginDefinition) : List String :=
  p.dependencies.getD []

structure InstalledPlugin where
  name : String
  repo : String
  commit : String
  installedAt : String
  path : String
deriving Repr, DecidableEq

structure LockFile where
  version : String
  generated : String
  plugins : List InstalledPlugin
deriving Repr, DecidableEq

/-- `ConfigFile`; `plugins` is an `Option` so that a configuration whose
`plugins` field is missing (`undefined` in JSON) is representable, as
`validateConfig` checks for it. -/
structure ConfigFile where
  plugins : Option (List PluginDefinition)
  installDir : Option String := none

/-! ## Errors (`src/utils/errors.ts`) -/

/-- The error classes of `src/utils/errors.ts`, each carrying the
`message` string it was constructed with. -/
inductive NecroError where
  | validation (msg : String)
  | git (msg : String)
  | config (msg : String)
deriving Repr, DecidableEq

/-! ## Character-level string primitives

Lean's byte-position-based `String.startsWith` / `String.drop` /
`String.splitOn` do not reduce inside the kernel, so the JavaScript
string operations used by the source are modelled on `String.toList`,
where every operation is structural: `listIsPrefix pre cs` is "`cs`
starts with `pre`", `strStartsWith` and `strDrop` lift prefix test and
drop back to `String`, and `splitSlash` is splitting on `'/'` (the only
separator the source splits on), agreeing with
`String.splitOn "/"`. -/

def listIsPrefix : List Char → List Char → Bool
  | [], _ => true
  | _ :: _, [] => false
  | c :: cs, d :: ds => c == d && listIsPrefix cs ds

def strStartsWith (s pre : String) : Bool :=
  listIsPrefix pre.toList s.toList

def strDrop (s : String) (n : Nat) : String :=
  String.mk (s.toList.drop n)

def splitSlash : List Char → List (List Char)
  | [] => [[]]
  | c :: rest =>
    if c = '/' then [] :: splitSlash rest
    else
      match splitSlash rest with
      | [] => [[c]]
      | seg :: segs => (c :: seg) :: segs

/-! ## Validator (`src/core/validator.ts`) -/

/-- JavaScript regex `\w` (no `u` flag): ASCII letters, digits, `_`. -/
def isWordChar (c : Char) : Bool :=
  c.isAlphanum || c == '_'

/-- `PLUGIN_NAME_REGEX = /^[\w][\w.-]{0,99}$/` from `validator.ts`:
one leading word character followed by at most 99 characters drawn from
word characters, `.` and `-`. -/
def isValidPluginName (name : String) : Bool :=
  match name.toList with
  | [] => false
  | c :: rest =>
    isWordChar c && decide (rest.length ≤ 99) &&
      rest.all (fun d => isWordChar d || d == '.' || d == '-')

/-- `COMMIT_HASH_REGEX = /^[a-f0-9]{40}$/i`. -/
def isValidCommitHash (hash : String) : Bool :=
  decide (hash.length = 40) &&
    hash.toList.all (fun c =>
      c.isDigit || ('a' ≤ c && c ≤ 'f') || ('A' ≤ c && c ≤ 'F'))

/-- `GITHUB_URL_REGEX = /^https:\/\/github\.com\/[\w-]+\/[\w.-]+(?:\.git)?$/`.
The optional `(?:\.git)?` suffix adds nothing to the language: the repo
segment class `[\w.-]+` already accepts any `.git` ending.  So the regex
accepts exactly `https://github.com/OWNER/REPO` with `OWNER` a nonempty
string over word characters and `-`, and `REPO` a nonempty string over
word characters, `.` and `-`. -/
def isValidGitHubUrl (url : String) : Bool :=
  strStartsWith url "https://github.com/" &&
    match splitSlash (url.toList.drop 19) with
    | [owner, repo] =>
      decide (owner ≠ []) && owner.all (fun c => isWordChar c || c == '-') &&
      decide (repo ≠ []) && repo.all (fun c => isWordChar c || c == '.' || c == '-')
    | _ => false

/-- `SHELL_METACHAR_REGEX = /[;&|`$()<>\n]/` (character membership). -/
def hasShellMetachar (s : String) : Bool :=
  s.toList.any (fun c =>
    c == ';' || c == '&' || c == '|' || c == '\x60' || c == '$' ||
    c == '(' || c == ')' || c == '<' || c == '>' || c == '\n')

/-- `sanitizeShellInput` from `validator.ts`: throws `ValidationError`
when the input contains a shell metacharacter. -/
def sanitizeShellInput (input : String) : Except NecroError Unit :=
  if hasShellMetachar input then
    .error (.validation "Invalid characters in input: shell metacharacters are not allowed")
  else
    .ok ()

/-! ## Config validation (`src/core/config.ts`, i.e. `unnamed/part_015`) -/

/-- The per-plugin loop body of `validateConfig`, threaded with the index
`i` and the set of names already seen (modelled as the list of names, in
order).  The JavaScript falsy test `!plugin.name` is modelled as the
empty-string test, covering both the empty string and an absent field. -/
def validatePluginsLoop : List PluginDefinition → Nat → List String → Except NecroError Unit
  | [], _, _ => .ok ()
  | p :: rest, i, seen =>
    if p.name = "" then
      .error (.validation ("Plugin at index " ++ toString i ++ " is missing required field: name"))
    else if p.repo = "" then
      .error (.validation ("Plugin at index " ++ toString i ++ " is missing required field: repo"))
    else if p.commit = "" then
      .error (.validation ("Plugin at index " ++ toString i ++ " is missing required field: commit"))
    else if !isValidPluginName p.name then
      .error (.validation ("Invalid plugin name: \"" ++ p.name ++ "\""))
    else if p.name ∈ seen then
      .error (.validation ("Duplicate plugin name: \"" ++ p.name ++ "\""))
    else if !isValidGitHubUrl p.repo then
      .error (.validation ("Invalid GitHub URL for plugin \"" ++ p.name ++ "\": " ++ p.repo))
    else if !isValidCommitHash p.commit then
      .error (.validation ("Invalid commit hash for plugin \"" ++ p.name ++ "\": " ++ p.commit))
    else
      validatePluginsLoop rest (i + 1) (seen ++ [p.name])

/-- `validateConfig` from `src/core/config.ts`: rejects a missing
`plugins` field, an empty `plugins` array, and each malformed entry, in
exactly the order the source checks them. -/
def validateConfig (config : ConfigFile) : Except NecroError Unit :=
  match config.plugins with
  | none => .error (.validation "Configuration must contain a \"plugins\" array")
  | some plugins =>
    if plugins.length = 0 then
      .error (.validation "Plugins array must not be empty")
    else
      validatePluginsLoop plugins 0 []

/-! ## Dependency resolver (`src/core/dependencies.ts`) -/

/-- The `pluginMap` built at the top of `resolveDependencies`. -/
def buildPluginMap (plugins : List PluginDefinition) : JsMap PluginDefinition :=
  plugins.foldl (fun m p => mapSet m p.name p) []

/-- The referential-integrity scan of `resolveDependencies`: the first
(dependent, missing dependency) pair encountered, scanning plugins and
their dependency lists in order. -/
def findMissingDep (pluginMap : JsMap PluginDefinition) :
    List PluginDefinition → Option (String × String)
  | [] => none
  | p :: rest =>
    match (depsOf p).find? (fun d => !(mapHas pluginMap d)) with
    | some d => some (p.name, d)
    | none => findMissingDep pluginMap rest

/-- Initialisation of the `inDegree` map: every plugin name bound to 0,
in declaration order. -/
def initInDegree (plugins : List PluginDefinition) : JsMap Int :=
  plugins.foldl (fun m p => mapSet m p.name 0) []

/-- Initialisation of the `adjacencyList` map: every plugin name bound to
the empty list, in declaration order. -/
def initAdjacency (plugins : List PluginDefinition) : JsMap (List String) :=
  plugins.foldl (fun m p => mapSet m p.name []) []

/-- One edge `d → p.name` of the edge-building loop: push `p.name` onto
`adjacencyList.get(d)` (a no-op when `d` is unbound, mirroring the
optional-chained `?.push`) and increment `inDegree` of `p.name` (with
`|| 0` defaulting). -/
def addEdgeStep (p : PluginDefinition) (s : JsMap Int × JsMap (List String)) (d : String) :
    JsMap Int × JsMap (List String) :=
  let adj' :=
    match mapGet s.2 d with
    | some l => mapSet s.2 d (l ++ [p.name])
    | none => s.2
  let deg' := mapSet s.1 p.name ((mapGet s.1 p.name).getD 0 + 1)
  (deg', adj')

/-- The edge-building double loop of `resolveDependencies`. -/
def addEdges (plugins : List PluginDefinition)
    (deg : JsMap Int) (adj : JsMap (List String)) : JsMap Int × JsMap (List String) :=
  plugins.foldl (fun s p => (depsOf p).foldl (addEdgeStep p) s) (deg, adj)

/-- The initial queue: names whose in-degree is 0, in `inDegree` map
(i.e. declaration) order. -/
def seedQueue (deg : JsMap Int) : List String :=
  (deg.filter (fun e => decide (e.2 = 0))).map (·.1)

/-- The inner `for (const neighbor of neighbors)` loop of Kahn's
algorithm: decrement each neighbour's in-degree and enqueue it exactly
when the decremented degree is 0. -/
def processNeighbors (neighbors : List String) (deg : JsMap Int) (q : List String) :
    JsMap Int × List String :=
  neighbors.foldl
    (fun (s : JsMap Int × List String) nb =>
      let newDegree := (mapGet s.1 nb).getD 0 - 1
      let deg' := mapSet s.1 nb newDegree
      if newDegree = 0 then (deg', s.2 ++ [nb]) else (deg', s.2))
    (deg, q)

/-- The `while (queue.length > 0)` loop of `resolveDependencies`.  The
source loop needs no fuel; here `fuel` is a structural-recursion bound.
Every queued name is enqueued at most once (seeds have degree 0 and are
never decremented; other names are enqueued only at the unique moment
their degree reaches 0), so `fuel = plugins.length` always suffices, and
the `fuel = 0` fallthrough is unreachable at the call site below.  The
`none` branch of the `pluginMap` lookup models the source's non-null
assertion `pluginMap.get(current)!`; it too is unreachable since queued
names are always plugin names. -/
def kahnLoop (pluginMap : JsMap PluginDefinition) (adj : JsMap (List String)) :
    Nat → List String → JsMap Int → List PluginDefinition → List PluginDefinition
  | _, [], _, res => res
  | 0, _ :: _, _, res => res
  | fuel + 1, current :: rest, deg, res =>
    let res' :=
      match mapGet pluginMap current with
      | some p => res ++ [p]
      | none => res
    let neighbors := (mapGet adj current).getD []
    let s := processNeighbors neighbors deg rest
    kahnLoop pluginMap adj fuel s.2 s.1 res'

/-- Message of the missing-dependency `ValidationError`. -/
def missingDepMsg (dependent missing : String) : String :=
  "Plugin \"" ++ dependent ++ "\" depends on \"" ++ missing ++ "\", but \"" ++
    missing ++ "\" is not defined in the configuration"

/-- Message of the circular-dependency `ValidationError`: the names of
every plugin left out of the sorted result, joined with `, `. -/
def circularMsg (names : List String) : String :=
  "Circular dependency detected involving plugins: " ++ String.intercalate ", " names

/-- The unresolved remainder computed when the sort comes up short. -/
def remainingNames (plugins result : List PluginDefinition) : List String :=
  (plugins.filter (fun p => !(result.any (fun r => r.name == p.name)))).map (·.name)

/-- `resolveDependencies` from `src/core/dependencies.ts`: Kahn's
algorithm over the declared set, preceded by the referential-integrity
scan and followed by the cycle check. -/
def resolveDependencies (plugins : List PluginDefinition) :
    Except NecroError (List PluginDefinition) :=
  let pluginMap := buildPluginMap plugins
  match findMissingDep pluginMap plugins with
  | some pr => .error (.validation (missingDepMsg pr.1 pr.2))
  | none =>
    let s := addEdges plugins (initInDegree plugins) (initAdjacency plugins)
    let queue := seedQueue s.1
    let result := kahnLoop pluginMap s.2 plugins.length queue s.1 []
    if result.length ≠ plugins.length then
      .error (.validation (circularMsg (remainingNames plugins result)))
    else
      .ok result

/-- `validateDependencies` from `src/core/dependencies.ts`. -/
def validateDependencies (plugins : List PluginDefinition) : Except NecroError Unit :=
  (resolveDependencies plugins).map (fun _ => ())

/-! ## Paths (`src/utils/paths.ts`)

A POSIX platform is assumed (`process.platform ≠ 'win32'`), and
`path.posix.join` is modelled as `"/"`-concatenation, which agrees with
it on the normalised, slash-free segments used here. -/

/-- `expandTilde` from `paths.ts`, with `os.homedir()` supplied as
`home`. -/
def expandTilde (home fp : String) : String :=
  if fp = "~/" then home ++ "/"
  else if strStartsWith fp "~/" then home ++ "/" ++ strDrop fp 2
  else fp

/-- `getDefaultInstallDir` on a Unix-like platform. -/
def getDefaultInstallDir (home : String) : String :=
  home ++ "/.local/share/nvim/necromancer/plugins"

/-- `resolvePluginPath` from `paths.ts`. -/
def resolvePluginPath (home : String) (pluginName : String)
    (customInstallDir : Option String) : String :=
  (match customInstallDir with
   | some d => expandTilde home d
   | none => getDefaultInstallDir home) ++ "/" ++ pluginName

/-! ## The external world: filesystem and git (`src/core/git.ts`, `fs`)

`GitWorld` is the oracle for the external collaborators: `fsExists`
models `existsSync`, `commitOf` the result of `git rev-parse HEAD` at a
path, and the `…Fails` fields say whether (and with what stderr text)
each git/fs operation fails.  Successful operations update the world
through `doClone` / `doCheckout` / `doRm`; command-string construction
(quoting and `;`-stripping in `buildGit…Command`) lies below this
abstraction level.  Every operation attempted is recorded as a
`GitOp`. -/

inductive GitOp where
  | clone (url path : String)
  | checkout (path commit : String)
  | rm (path : String)
  | revQuery (path : String)
deriving Repr, DecidableEq

structure GitWorld where
  fsExists : String → Bool
  commitOf : String → Except String String
  cloneFails : String → String → Option String
  checkoutFails : String → String → Option String
  rmFails : String → Option String
  headOf : String → String
  home : String
  now : String
  writeLockOk : Bool := true

/-- Effect of a successful `rmSync(path, {recursive: true})`. -/
def doRm (w : GitWorld) (p : String) : GitWorld :=
  { w with
    fsExists := fun q => if q = p then false else w.fsExists q,
    commitOf := fun q => if q = p then .error "not a git repository" else w.commitOf q }

/-- Effect of a successful `git clone url path`: the directory exists and
is a repository at the remote's HEAD commit. -/
def doClone (w : GitWorld) (url p : String) : GitWorld :=
  { w with
    fsExists := fun q => if q = p then true else w.fsExists q,
    commitOf := fun q => if q = p then .ok (w.headOf url) else w.commitOf q }

/-- Effect of a successful `git checkout commit` in `path`. -/
def doCheckout (w : GitWorld) (p c : String) : GitWorld :=
  { w with commitOf := fun q => if q = p then .ok c else w.commitOf q }

/-! ## Installer (`src/core/installer.ts`) -/

inductive StatusKind where
  | success
  | failed
  | skipped
  | updated
deriving Repr, DecidableEq

/-- `InstallationStatus` from `src/models/plugin.ts`; `error` holds the
message of the caught `Error`, when present. -/
structure InstallationStatus where
  plugin : PluginDefinition
  status : StatusKind
  message : String
  error : Option String := none
deriving Repr, DecidableEq

/-- Result of a world-changing git/fs sequence: the final world, the
operations attempted in order, and the thrown `GitError` message if the
sequence failed partway. -/
structure VcsRun where
  world : GitWorld
  ops : List GitOp
  err : Option String

/-- `verifyInstallation` from `installer.ts`: false when the directory is
missing, when `git rev-parse HEAD` fails (the caught exception), or when
the reported commit is not 40 characters long.  Queries do not change the
world, so only the operation list and the verdict are returned. -/
def verifyInstallation (w : GitWorld) (installed : InstalledPlugin) : List GitOp × Bool :=
  if !(w.fsExists installed.path) then ([], false)
  else
    ([.revQuery installed.path],
     match w.commitOf installed.path with
     | .error _ => false
     | .ok c => decide (c.length = 40))

/-- `repairPlugin` from `installer.ts`: remove the directory if present,
then clone and checkout.  The `err` field carries the `GitError` message
when a step throws. -/
def repairPlugin (w : GitWorld) (d : PluginDefinition) (targetPath : String) : VcsRun :=
  let step0 : VcsRun :=
    if w.fsExists targetPath then
      match w.rmFails targetPath with
      | some e =>
        ⟨w, [.rm targetPath], some ("Failed to remove corrupted plugin directory: " ++ e)⟩
      | none => ⟨doRm w targetPath, [.rm targetPath], none⟩
    else ⟨w, [], none⟩
  match step0.err with
  | some e => ⟨step0.world, step0.ops, some e⟩
  | none =>
    let w1 := step0.world
    match w1.cloneFails d.repo targetPath with
    | some e =>
      ⟨w1, step0.ops ++ [.clone d.repo targetPath], some ("Failed to clone " ++ d.repo ++ ": " ++ e)⟩
    | none =>
      let w2 := doClone w1 d.repo targetPath
      match w2.checkoutFails targetPath d.commit with
      | some e =>
        ⟨w2, step0.ops ++ [.clone d.repo targetPath, .checkout targetPath d.commit],
          some ("Failed to checkout commit " ++ d.commit ++ ": " ++ e)⟩
      | none =>
        ⟨doCheckout w2 targetPath d.commit,
          step0.ops ++ [.clone d.repo targetPath, .checkout targetPath d.commit], none⟩

/-- Result of reconciling one plugin: final world, attempted operations,
and the `InstallationStatus` the function returns. -/
structure PluginRun where
  world : GitWorld
  ops : List GitOp
  status : InstallationStatus

/-- `updatePlugin` from `installer.ts`.  The surrounding `try … catch`
turns any thrown `GitError` into a `failed` status. -/
def updatePlugin (w : GitWorld) (d : PluginDefinition) (installed : InstalledPlugin) : PluginRun :=
  let v := verifyInstallation w installed
  if !v.2 then
    let r := repairPlugin w d installed.path
    match r.err with
    | some e =>
      ⟨r.world, v.1 ++ r.ops,
        { plugin := d, status := .failed, message := "Failed to update " ++ d.name, error := some e }⟩
    | none =>
      ⟨r.world, v.1 ++ r.ops,
        { plugin := d, status := .updated,
          message := "Repaired and updated " ++ d.name ++ " to commit " ++ d.commit.take 8 }⟩
  else
    match w.commitOf installed.path with
    | .error e =>
      ⟨w, v.1 ++ [.revQuery installed.path],
        { plugin := d, status := .failed, message := "Failed to update " ++ d.name,
          error := some ("Failed to get current commit: " ++ e) }⟩
    | .ok currentCommit =>
      if currentCommit = d.commit then
        ⟨w, v.1 ++ [.revQuery installed.path],
          { plugin := d, status := .skipped,
            message := d.name ++ " already at commit " ++ d.commit.take 8 }⟩
      else
        match w.checkoutFails installed.path d.commit with
        | some e =>
          ⟨w, v.1 ++ [.revQuery installed.path, .checkout installed.path d.commit],
            { plugin := d, status := .failed, message := "Failed to update " ++ d.name,
              error := some ("Failed to checkout commit " ++ d.commit ++ ": " ++ e) }⟩
        | none =>
          ⟨doCheckout w installed.path d.commit,
            v.1 ++ [.revQuery installed.path, .checkout installed.path d.commit],
            { plugin := d, status := .updated,
              message := "Updated " ++ d.name ++ " from " ++ currentCommit.take 8 ++
                " to " ++ d.commit.take 8 }⟩

/-- `installPlugin` from `installer.ts`.  The surrounding `try … catch`
turns any thrown `GitError` into a `failed` status for this plugin; the
function itself never propagates an exception. -/
def installPlugin (w : GitWorld) (d : PluginDefinition) (installDir : Option String) : PluginRun :=
  let targetPath := resolvePluginPath w.home d.name installDir
  if w.fsExists targetPath then
    let installed : InstalledPlugin :=
      { name := d.name, repo := d.repo, commit := d.commit, installedAt := w.now,
        path := targetPath }
    let v := verifyInstallation w installed
    if !v.2 then
      let r := repairPlugin w d targetPath
      match r.err with
      | some e =>
        ⟨r.world, v.1 ++ r.ops,
          { plugin := d, status := .failed, message := "Failed to install " ++ d.name,
            error := some e }⟩
      | none =>
        ⟨r.world, v.1 ++ r.ops,
          { plugin := d, status := .success,
            message := "Installed " ++ d.name ++ " at commit " ++ d.commit.take 8 ++
              " (repaired corrupted installation)" }⟩
    else
      match w.commitOf targetPath with
      | .error e =>
        ⟨w, v.1 ++ [.revQuery targetPath],
          { plugin := d, status := .failed, message := "Failed to install " ++ d.name,
            error := some ("Failed to get current commit: " ++ e) }⟩
      | .ok currentCommit =>
        if currentCommit = d.commit then
          ⟨w, v.1 ++ [.revQuery targetPath],
            { plugin := d, status := .skipped,
              message := d.name ++ " already installed at commit " ++ d.commit.take 8 }⟩
        else
          match w.checkoutFails targetPath d.commit with
          | some e =>
            ⟨w, v.1 ++ [.revQuery targetPath, .checkout targetPath d.commit],
              { plugin := d, status := .failed, message := "Failed to install " ++ d.name,
                error := some ("Failed to checkout commit " ++ d.commit ++ ": " ++ e) }⟩
          | none =>
            ⟨doCheckout w targetPath d.commit,
              v.1 ++ [.revQuery targetPath, .checkout targetPath d.commit],
              { plugin := d, status := .updated,
                message := "Updated " ++ d.name ++ " from " ++ currentCommit.take 8 ++
                  " to " ++ d.commit.take 8 }⟩
  else
    match w.cloneFails d.repo targetPath with
    | some e =>
      ⟨w, [.clone d.repo targetPath],
        { plugin := d, status := .failed, message := "Failed to install " ++ d.name,
          error := some ("Failed to clone " ++ d.repo ++ ": " ++ e) }⟩
    | none =>
      let w1 := doClone w d.repo targetPath
      match w1.checkoutFails targetPath d.commit with
      | some e =>
        ⟨w1, [.clone d.repo targetPath, .checkout targetPath d.commit],
          { plugin := d, status := .failed, message := "Failed to install " ++ d.name,
            error := some ("Failed to checkout commit " ++ d.commit ++ ": " ++ e) }⟩
      | none =>
        ⟨doCheckout w1 targetPath d.commit,
          [.clone d.repo targetPath, .checkout targetPath d.commit],
          { plugin := d, status := .success,
            message := "Installed " ++ d.name ++ " at commit " ++ d.commit.take 8 }⟩

/-! ## The `install` command (`src/cli/commands/install.ts`)

Modelled from the point where the configuration file has been read and
JSON-parsed and the lock file loaded; `parseConfigFile`'s semantic
validation (`validateConfig`) is included, file I/O and JSON decoding
are not.  A failing `writeLockFile` is modelled by
`GitWorld.writeLockOk = false` (the thrown `ConfigError` is caught at
the top of `install`, producing exit code 1). -/

/-- The lock-file upsert of `install.ts`: replace the entry at the
existing `findIndex` position, or push a new one. -/
def upsertLock (plugins : List InstalledPlugin) (entry : InstalledPlugin) :
    List InstalledPlugin :=
  match plugins.findIdx? (fun p => p.name == entry.name) with
  | some i => plugins.set i entry
  | none => plugins ++ [entry]

/-- The `InstalledPlugin` record `install.ts` builds for the lock file
(note: `config.installDir` is used verbatim, without tilde expansion). -/
def lockEntryFor (w : GitWorld) (config : ConfigFile) (p : PluginDefinition) : InstalledPlugin :=
  { name := p.name, repo := p.repo, commit := p.commit, installedAt := w.now,
    path :=
      match config.installDir with
      | some d => d ++ "/" ++ p.name
      | none => w.home ++ "/.local/share/nvim/necromancer/plugins/" ++ p.name }

/-- Accumulated state of the per-plugin loop of `install`. -/
structure LoopRun where
  world : GitWorld
  ops : List GitOp
  statuses : List InstallationStatus
  lockPlugins : List InstalledPlugin

/-- The `for (const plugin of config.plugins)` loop of `install.ts`:
reconcile each plugin with `installPlugin` and upsert its lock entry
when the status is `success`, `updated` or `skipped`. -/
def installLoop (config : ConfigFile) (ps : List PluginDefinition)
    (w : GitWorld) (lock : List InstalledPlugin) : LoopRun :=
  match ps with
  | [] => ⟨w, [], [], lock⟩
  | p :: rest =>
    let r := installPlugin w p config.installDir
    let lock' :=
      if r.status.status == .success || r.status.status == .updated ||
          r.status.status == .skipped then
        upsertLock lock (lockEntryFor w config p)
      else lock
    let k := installLoop config rest r.world lock'
    ⟨k.world, r.ops ++ k.ops, r.status :: k.statuses, k.lockPlugins⟩

/-- The `--auto-clean` orphan removal loop: `rmSync` each orphan whose
directory exists, logging (and swallowing) per-orphan failures. -/
def cleanOrphans (w : GitWorld) : List InstalledPlugin → GitWorld × List GitOp
  | [] => (w, [])
  | o :: rest =>
    if w.fsExists o.path then
      match w.rmFails o.path with
      | some _ =>
        let r := cleanOrphans w rest
        (r.1, .rm o.path :: r.2)
      | none =>
        let r := cleanOrphans (doRm w o.path) rest
        (r.1, .rm o.path :: r.2)
    else cleanOrphans w rest

/-- Overall result of one `install` run. -/
structure RunResult where
  world : GitWorld
  ops : List GitOp
  lock : LockFile
  statuses : List InstallationStatus
  exitCode : Nat

/-- The `install` command core: validate the parsed configuration (a
`ValidationError` is caught at the top and yields exit code 1 with no
plugin touched), reconcile every plugin of `config.plugins` in
declaration order, upsert lock entries, optionally auto-clean orphans,
write the lock file, and derive the exit code (0 all good, 2 partial
failure).  `RunResult.lock` is the in-memory lock snapshot; it reaches
disk exactly when `writeLockOk` is true. -/
def installRun (w : GitWorld) (config : ConfigFile) (lock : LockFile)
    (autoClean : Bool) : RunResult :=
  match validateConfig config with
  | .error _ => ⟨w, [], lock, [], 1⟩
  | .ok _ =>
    let plugins := config.plugins.getD []
    let lr := installLoop config plugins w lock.plugins
    let configNames := plugins.map (·.name)
    let orphans := lr.lockPlugins.filter (fun p => !(configNames.contains p.name))
    let doClean := autoClean && !orphans.isEmpty
    let cleaned := if doClean then cleanOrphans lr.world orphans else (lr.world, [])
    let lockPlugins' :=
      if doClean then lr.lockPlugins.filter (fun p => configNames.contains p.name)
      else lr.lockPlugins
    let finalLock : LockFile :=
      { version := lock.version, generated := w.now, plugins := lockPlugins' }
    if w.writeLockOk then
      let failedCount := lr.statuses.countP (fun s => s.status == .failed)
      ⟨cleaned.1, lr.ops ++ cleaned.2, finalLock, lr.statuses,
        if failedCount = 0 then 0 else 2⟩
    else
      ⟨cleaned.1, lr.ops ++ cleaned.2, finalLock, lr.statuses, 1⟩

/-- First lock entry bound to a name (how `install.ts` addresses the
lock file, via `findIndex`/`find` on `name`). -/
def lockLookup (l : List InstalledPlugin) (n : String) : Option InstalledPlugin :=
  l.find? (fun p => p.name == n)

/-- Modelled from the spec: the plugin-name predicate exactly as §4.1
words it — non-empty, at most 100 code units, only letters, digits,
hyphen, underscore and dot, not beginning with a hyphen.  Used only to
compare the spec's wording against `isValidPluginName`. -/
def specValidPluginName (name : String) : Bool :=
  decide (name.toList ≠ []) && decide (name.toList.length ≤ 100) &&
    name.toList.all (fun c => c.isAlphanum || c == '-' || c == '_' || c == '.') &&
    !(strStartsWith name "-")

/-! ## Concrete fixtures used to instantiate the theorems -/

/-- A world in which nothing is installed and every git operation
succeeds. -/
def okWorld : GitWorld where
  fsExists := fun _ => false
  commitOf := fun _ => .error "not a git repository"
  cloneFails := fun _ _ => none
  checkoutFails := fun _ _ => none
  rmFails := fun _ => none
  headOf := fun _ => "feedfeedfeedfeedfeedfeedfeedfeedfeedfeed"
  home := "/home/user"
  now := "2024-01-01T00:00:00.000Z"
  writeLockOk := true

/-- A world in which nothing is installed and every clone fails. -/
def cloneFailWorld : GitWorld where
  fsExists := fun _ => false
  commitOf := fun _ => .error "not a git repository"
  cloneFails := fun _ _ => some "could not resolve host"
  checkoutFails := fun _ _ => none
  rmFails := fun _ => none
  headOf := fun _ => "feedfeedfeedfeedfeedfeedfeedfeedfeedfeed"
  home := "/home/user"
  now := "2024-01-01T00:00:00.000Z"
  writeLockOk := true

/-- A world in which the plugin `alpha` is already installed at its
declared commit. -/
def alphaInstalledWorld : GitWorld where
  fsExists := fun p => p == "/plugins/alpha"
  commitOf := fun p =>
    if p == "/plugins/alpha" then .ok "aaaaaaaaaaaaaaaaaaaaaaaaaaaaaaaaaaaaaaaa"
    else .error "not a git repository"
  cloneFails := fun _ _ => none
  checkoutFails := fun _ _ => none
  rmFails := fun _ => none
  headOf := fun _ => "feedfeedfeedfeedfeedfeedfeedfeedfeedfeed"
  home := "/home/user"
  now := "2024-01-01T00:00:00.000Z"
  writeLockOk := true

def alphaDef : PluginDefinition :=
  { name := "alpha", repo := "https://github.com/user/alpha",
    commit := "aaaaaaaaaaaaaaaaaaaaaaaaaaaaaaaaaaaaaaaa", dependencies := some ["beta"] }

def betaDef : PluginDefinition :=
  { name := "beta", repo := "https://github.com/user/beta",
    commit := "bbbbbbbbbbbbbbbbbbbbbbbbbbbbbbbbbbbbbbbb", dependencies := some ["alpha"] }

def plenaryDef : PluginDefinition :=
  { name := "plenary", repo := "https://github.com/nvim-lua/plenary.nvim",
    commit := "cccccccccccccccccccccccccccccccccccccccc", dependencies := none }

def telescopeDef : PluginDefinition :=
  { name := "telescope", repo := "https://github.com/nvim-telescope/telescope.nvim",
    commit := "dddddddddddddddddddddddddddddddddddddddd",
    dependencies := some ["plenary"] }

def selfDepDef : PluginDefinition :=
  { name := "ouro", repo := "https://github.com/user/ouro",
    commit := "eeeeeeeeeeeeeeeeeeeeeeeeeeeeeeeeeeeeeeee", dependencies := some ["ouro"] }

def alphaOnlyDef : PluginDefinition :=
  { name := "alpha", repo := "https://github.com/user/alpha",
    commit := "aaaaaaaaaaaaaaaaaaaaaaaaaaaaaaaaaaaaaaaa", dependencies := none }

/-- A configuration whose dependency graph is a two-cycle, with
otherwise fully valid fields — `validateConfig` accepts it. -/
def cyclicConfig : ConfigFile :=
  { plugins := some [alphaDef, betaDef], installDir := some "/plugins" }

/-- A configuration declaring a dependent before its dependency. -/
def orderedConfig : ConfigFile :=
  { plugins := some [telescopeDef, plenaryDef], installDir := some "/plugins" }

/-- A two-plugin configuration with no dependencies. -/
def mixedConfig : ConfigFile :=
  { plugins := some [alphaOnlyDef, plenaryDef], installDir := some "/plugins" }

/-- A single-plugin configuration. -/
def alphaConfig : ConfigFile :=
  { plugins := some [alphaOnlyDef], installDir := some "/plugins" }

def emptyLock : LockFile := { version := "1", generated := "", plugins := [] }

def abcdA : PluginDefinition :=
  { name := "A", repo := "https://github.com/user/A",
    commit := "aaaaaaaaaaaaaaaaaaaaaaaaaaaaaaaaaaaaaaaa", dependencies := some ["D"] }

def abcdB : PluginDefinition :=
  { name := "B", repo := "https://github.com/user/B",
    commit := "bbbbbbbbbbbbbbbbbbbbbbbbbbbbbbbbbbbbbbbb", dependencies := some ["D"] }

def abcdC : PluginDefinition :=
  { name := "C", repo := "https://github.com/user/C",
    commit := "cccccccccccccccccccccccccccccccccccccccc", dependencies := some ["D"] }

def abcdD : PluginDefinition :=
  { name := "D", repo := "https://github.com/user/D",
    commit := "dddddddddddddddddddddddddddddddddddddddd", dependencies := none }

/-! ## Semantic vocabulary for the resolver claims -/

/-- The declared names, in declaration order. -/
def namesOf (P : List PluginDefinition) : List String := P.map (·.name)

/-- Keys of a `JsMap`, in insertion order. -/
def keys {α : Type} (m : JsMap α) : List String := m.map (·.1)

/-- Dependency edge of the declared set: `depEdge P a b` says some
declared plugin named `b` lists `a` among its dependencies, i.e. `a`
must be installed before `b`. -/
def depEdge (P : List PluginDefinition) (a b : String) : Prop :=
  ∃ p ∈ P, p.name = b ∧ a ∈ depsOf p

/-- Referential integrity: every dependency name is a declared name. -/
def DepClosed (P : List PluginDefinition) : Prop :=
  ∀ p ∈ P, ∀ d ∈ depsOf p, d ∈ namesOf P

/-- The dependency graph has no (directed) cycle, self-loops included. -/
def Acyclic (P : List PluginDefinition) : Prop :=
  ∀ x, ¬ Relation.TransGen (depEdge P) x x

/-- Dependency list of the (first) declared plugin named `x`; `[]` when
no such plugin exists. -/
def depsIn (P : List PluginDefinition) (x : String) : List String :=
  ((P.find? (fun p => p.name == x)).map depsOf).getD []

/-- All dependents of `d`, one occurrence per occurrence of `d` in a
dependency list, in declaration order — the contents of the adjacency
list built by `resolveDependencies`. -/
def dependentsOf (P : List PluginDefinition) (d : String) : List String :=
  P.flatMap (fun p => ((depsOf p).filter (fun e => e == d)).map (fun _ => p.name))

/-- Every element of `res` has all its dependencies strictly earlier in
`res`. -/
def DepsRespected (P res : List PluginDefinition) : Prop :=
  ∀ j (h : j < res.length), ∀ d ∈ depsIn P (res.get ⟨j, h⟩).name,
    d ∈ (res.take j).map (·.name)

/-- Number of dependencies of `x` (with multiplicity) not yet resolved. -/
def remDeg (P : List PluginDefinition) (resN : List String) (x : String) : Int :=
  (((depsIn P x).filter (fun d => decide (d ∉ resN))).length : Int)

/-- Invariant of the `while` loop of `resolveDependencies`, relating the
queue, the in-degree map and the partial result. -/
structure KahnInv (P : List PluginDefinition) (q : List String) (deg : JsMap Int)
    (res : List PluginDefinition) : Prop where
  sub_res : ∀ p ∈ res, p ∈ P
  sub_q : ∀ x ∈ q, x ∈ namesOf P
  nodup : (res.map (fun p => p.name) ++ q).Nodup
  deg_eq : ∀ x ∈ namesOf P, mapGet deg x = some (remDeg P (res.map (fun p => p.name)) x)
  ready : ∀ x ∈ namesOf P, remDeg P (res.map (fun p => p.name)) x = 0 →
    x ∈ res.map (fun p => p.name) ∨ x ∈ q
  q_deps : ∀ x ∈ q, ∀ d ∈ depsIn P x, d ∈ res.map (fun p => p.name)
  res_deps : ∀ x ∈ res.map (fun p => p.name), ∀ d ∈ depsIn P x, d ∈ res.map (fun p => p.name)
  order : DepsRespected P res

/-- What holds of the loop's final result. -/
structure KahnOut (P : List PluginDefinition) (out : List PluginDefinition) : Prop where
  sub : ∀ p ∈ out, p ∈ P
  nodup : (out.map (fun p => p.name)).Nodup
  order : DepsRespected P out
  closed : ∀ x ∈ namesOf P, (∀ d ∈ depsIn P x, d ∈ out.map (fun p => p.name)) →
    x ∈ out.map (fun p => p.name)

/-- The value computed by the sorting phase of `resolveDependencies`. -/
def kahnRun (P : List PluginDefinition) : List PluginDefinition :=
  kahnLoop (buildPluginMap P) (addEdges P (initInDegree P) (initAdjacency P)).2
    P.length (seedQueue (addEdges P (initInDegree P) (initAdjacency P)).1)
    (addEdges P (initInDegree P) (initAdjacency P)).1 []

/-! ## `JsMap` lemmas -/

theorem mapGet_mapSet_self {α : Type} (m : JsMap α) (k : String) (v : α) :
    mapGet (mapSet m k v) k = some v := by
  induction m with
  | nil => simp [mapSet, mapGet]
  | cons e rest ih =>
    by_cases h : e.1 = k
    · simp [mapSet, mapGet, h]
    · simp [mapSet, mapGet, h, ih]

theorem mapGet_mapSet_ne {α : Type} (m : JsMap α) (k k' : String) (v : α) (h : k' ≠ k) :
    mapGet (mapSet m k v) k' = mapGet m k' := by
  induction m with
  | nil => simp [mapSet, mapGet, Ne.symm h]
  | cons e rest ih =>
    by_cases he : e.1 = k
    · subst he
      simp [mapSet, mapGet, Ne.symm h, h]
    · simp [mapSet, mapGet, he, ih]

theorem mapGet_eq_none_iff {α : Type} (m : JsMap α) (k : String) :
    mapGet m k = none ↔ k ∉ keys m := by
  induction m with
  | nil => simp [mapGet, keys]
  | cons e rest ih =>
    by_cases h : e.1 = k
    · simp [mapGet, keys, h]
    · simp [mapGet, keys, h, ih, Ne.symm h]

theorem mapGet_isSome_iff {α : Type} (m : JsMap α) (k : String) :
    (mapGet m k).isSome ↔ k ∈ keys m := by
  constructor
  · intro hs
    by_contra hk
    rw [(mapGet_eq_none_iff m k).mpr hk] at hs
    simp at hs
  · intro hk
    by_contra hs
    exact ((mapGet_eq_none_iff m k).mp (Option.not_isSome_iff_eq_none.mp hs)) hk

theorem mapSet_eq_append {α : Type} {m : JsMap α} {k : String} (v : α)
    (h : mapGet m k = none) : mapSet m k v = m ++ [(k, v)] := by
  induction m with
  | nil => simp [mapSet]
  | cons e rest ih =>
    by_cases he : e.1 = k
    · simp [mapGet, he] at h
    · simp [mapGet, he] at h
      simp [mapSet, he, ih h]

theorem keys_mapSet_of_mem {α : Type} (m : JsMap α) (k : String) (v : α)
    (h : k ∈ keys m) : keys (mapSet m k v) = keys m := by
  induction m with
  | nil => simp [keys] at h
  | cons e rest ih =>
    by_cases he : e.1 = k
    · simp [mapSet, keys, he]
    · have h1 : k ∈ keys rest := by
        have h0 : k ∈ e.1 :: keys rest := h
        rcases List.mem_cons.mp h0 with h2 | h2
        · exact absurd h2.symm he
        · exact h2
      have h2 := ih h1
      simp [mapSet, keys, he] at h2 ⊢
      exact h2

/-! ## Tabulated maps

With pairwise-distinct plugin names, the three map-building folds of
`resolveDependencies` produce plain tabulations. -/

theorem foldl_mapSet_fresh {α : Type} (f : PluginDefinition → α) :
    ∀ (P : List PluginDefinition) (acc : JsMap α),
      (∀ p ∈ P, p.name ∉ keys acc) → (namesOf P).Nodup →
      P.foldl (fun m p => mapSet m p.name (f p)) acc =
        acc ++ P.map (fun p => (p.name, f p)) := by
  intro P
  induction P with
  | nil => intro acc _ _; simp
  | cons p rest ih =>
    intro acc hfresh hnd
    have hget : mapGet acc p.name = none :=
      (mapGet_eq_none_iff acc p.name).mpr (hfresh p (by simp))
    have hstep : mapSet acc p.name (f p) = acc ++ [(p.name, f p)] :=
      mapSet_eq_append (f p) hget
    have hnd2 : (p.name :: namesOf rest).Nodup := hnd
    have hnd' : (namesOf rest).Nodup := (List.nodup_cons.mp hnd2).2
    have hne : p.name ∉ namesOf rest := (List.nodup_cons.mp hnd2).1
    have hfresh' : ∀ q ∈ rest, q.name ∉ keys (acc ++ [(p.name, f p)]) := by
      intro q hq
      simp only [keys, List.map_append, List.mem_append]
      rintro (h | h)
      · exact hfresh q (by simp [hq]) h
      · simp at h
        exact hne (h ▸ List.mem_map_of_mem (·.name) hq)
    calc (p :: rest).foldl (fun m q => mapSet m q.name (f q)) acc
      = rest.foldl (fun m q => mapSet m q.name (f q)) (acc ++ [(p.name, f p)]) := by
          simp [hstep]
    _ = acc ++ [(p.name, f p)] ++ rest.map (fun q => (q.name, f q)) := ih _ hfresh' hnd'
    _ = acc ++ (p :: rest).map (fun q => (q.name, f q)) := by simp

theorem buildPluginMap_eq (P : List PluginDefinition) (hnd : (namesOf P).Nodup) :
    buildPluginMap P = P.map (fun p => (p.name, p)) := by
  simpa using foldl_mapSet_fresh id P [] (by simp [keys]) hnd

theorem initInDegree_eq (P : List PluginDefinition) (hnd : (namesOf P).Nodup) :
    initInDegree P = P.map (fun p => (p.name, (0 : Int))) := by
  simpa using foldl_mapSet_fresh (fun _ => (0 : Int)) P [] (by simp [keys]) hnd

theorem initAdjacency_eq (P : List PluginDefinition) (hnd : (namesOf P).Nodup) :
    initAdjacency P = P.map (fun p => (p.name, ([] : List String))) := by
  simpa using foldl_mapSet_fresh (fun _ => ([] : List String)) P [] (by simp [keys]) hnd

theorem mapGet_tab {α : Type} (f : PluginDefinition → α) (P : List PluginDefinition)
    (x : String) :
    mapGet (P.map (fun p => (p.name, f p))) x = (P.find? (fun p => p.name == x)).map f := by
  induction P with
  | nil => simp [mapGet]
  | cons p rest ih =>
    by_cases h : p.name = x
    · simp [mapGet, h, List.find?_cons]
    · have hb : (p.name == x) = false := by simpa using h
      simp [mapGet, h, List.find?_cons, hb, ih]

theorem find?_name_of_mem (P : List PluginDefinition) (x : String) (hx : x ∈ namesOf P) :
    ∃ p, P.find? (fun p => p.name == x) = some p ∧ p ∈ P ∧ p.name = x := by
  cases h : P.find? (fun p => p.name == x) with
  | some p =>
    refine ⟨p, rfl, List.mem_of_find?_eq_some h, ?_⟩
    have := List.find?_some h
    simpa using this
  | none =>
    obtain ⟨p, hp, hpn⟩ := List.mem_map.mp hx
    have := List.find?_eq_none.mp h p hp
    simp [hpn] at this

theorem name_inj (P : List PluginDefinition) (hnd : (namesOf P).Nodup) :
    ∀ p ∈ P, ∀ q ∈ P, p.name = q.name → p = q := by
  have := List.inj_on_of_nodup_map (f := (·.name)) (l := P) (by simpa [namesOf] using hnd)
  exact this

theorem find?_eq_of_mem (P : List PluginDefinition) (hnd : (namesOf P).Nodup)
    (p : PluginDefinition) (hp : p ∈ P) :
    P.find? (fun q => q.name == p.name) = some p := by
  obtain ⟨q, hq, hqP, hqn⟩ := find?_name_of_mem P p.name (List.mem_map_of_mem (·.name) hp)
  rw [hq, name_inj P hnd q hqP p hp hqn]

theorem depsIn_eq (P : List PluginDefinition) (hnd : (namesOf P).Nodup)
    (p : PluginDefinition) (hp : p ∈ P) : depsIn P p.name = depsOf p := by
  simp [depsIn, find?_eq_of_mem P hnd p hp]

theorem depsIn_cons (p : PluginDefinition) (R : List PluginDefinition) (x : String) :
    depsIn (p :: R) x = if p.name = x then depsOf p else depsIn R x := by
  by_cases h : p.name = x
  · simp [depsIn, List.find?_cons, h]
  · have hb : (p.name == x) = false := by simpa using h
    simp [depsIn, List.find?_cons, hb, h]

theorem depsIn_of_not_mem (P : List PluginDefinition) (x : String)
    (hx : x ∉ namesOf P) : depsIn P x = [] := by
  induction P with
  | nil => simp [depsIn]
  | cons p R ih =>
    have h1 : ¬p.name = x := fun h => hx (by simp [namesOf, h])
    rw [depsIn_cons, if_neg h1]
    exact ih (fun h => hx (by simp [namesOf] at h ⊢; tauto))

theorem mem_dependentsOf (P : List PluginDefinition) (d y : String)
    (hy : y ∈ dependentsOf P d) : y ∈ namesOf P := by
  simp only [dependentsOf, List.mem_flatMap, List.mem_map] at hy
  obtain ⟨p, hp, _, _, hname⟩ := hy
  exact hname ▸ List.mem_map_of_mem (·.name) hp

theorem length_filter_beq (l : List String) (d : String) :
    (l.filter (fun e => e == d)).length = l.count d := by
  rw [show l.count d = l.countP (fun e => e == d) from rfl, List.countP_eq_length_filter]

theorem filter_map_const_replicate (l : List String) (d : String) (c : String) :
    (l.filter (fun e => e == d)).map (fun _ => c) = List.replicate (l.count d) c := by
  rw [List.eq_replicate_iff]
  refine ⟨by simp [length_filter_beq], ?_⟩
  intro b hb
  simp at hb
  exact hb.2

theorem count_dependentsOf (P : List PluginDefinition) (hnd : (namesOf P).Nodup) :
    ∀ x d, (dependentsOf P d).count x = (depsIn P x).count d := by
  induction P with
  | nil => intro x d; simp [dependentsOf, depsIn]
  | cons p R ih =>
    intro x d
    have hnd2 : (p.name :: namesOf R).Nodup := hnd
    have hne : p.name ∉ namesOf R := (List.nodup_cons.mp hnd2).1
    have hndR : (namesOf R).Nodup := (List.nodup_cons.mp hnd2).2
    have hsplit : dependentsOf (p :: R) d =
        List.replicate ((depsOf p).count d) p.name ++ dependentsOf R d := by
      simp [dependentsOf, filter_map_const_replicate, length_filter_beq]
    rw [hsplit, List.count_append, depsIn_cons]
    by_cases h : p.name = x
    · subst h
      have h0 : (dependentsOf R d).count p.name = 0 := by
        rw [List.count_eq_zero]
        exact fun hmem => hne (mem_dependentsOf R d p.name hmem)
      simp [h0, List.count_replicate, length_filter_beq]
    · have hrep : (List.replicate ((depsOf p).count d) p.name).count x = 0 := by
        rw [List.count_eq_zero]
        intro hmem
        exact h (List.eq_of_mem_replicate hmem).symm
      simp [hrep, if_neg h, ih hndR]

theorem mapGet_some_mem {α : Type} (m : JsMap α) (k : String) (v : α)
    (h : mapGet m k = some v) : (k, v) ∈ m := by
  induction m with
  | nil => simp [mapGet] at h
  | cons e rest ih =>
    by_cases he : e.1 = k
    · have h2 : e.2 = v := by simpa [mapGet, he] using h
      have h3 : e = (k, v) := by
        cases e
        simp only at he h2
        simp [he, h2]
      rw [h3]
      exact List.mem_cons_self _ _
    · simp [mapGet, he] at h
      exact List.mem_cons_of_mem _ (ih h)

theorem mem_mapGet {α : Type} (m : JsMap α) (hk : (keys m).Nodup) (k : String) (v : α)
    (h : (k, v) ∈ m) : mapGet m k = some v := by
  induction m with
  | nil => simp at h
  | cons e rest ih =>
    have hk2 : (e.1 :: keys rest).Nodup := hk
    rcases List.mem_cons.mp h with h1 | h1
    · subst h1
      simp [mapGet]
    · have hne : e.1 ≠ k := by
        intro he
        exact (List.nodup_cons.mp hk2).1
          (he ▸ List.mem_map_of_mem Prod.fst h1)


      simp [mapGet, hne]
      exact ih (List.nodup_cons.mp hk2).2 h1

/-- Full characterisation of the inner neighbour loop of Kahn's
algorithm: every neighbour's degree drops by its multiplicity, and the
names appended to the queue are exactly those whose degree lands on 0 —
each appended once, provided no degree overshoots below 0. -/
theorem processNeighbors_spec :
    ∀ (ns : List String) (dv : String → Int) (deg : JsMap Int) (q : List String),
      (∀ x ∈ ns, mapGet deg x = some (dv x)) →
      (∀ x ∈ ns, 0 ≤ dv x - (ns.count x : Int)) →
      ∃ pushed : List String,
        (processNeighbors ns deg q).2 = q ++ pushed ∧
        pushed.Nodup ∧
        (∀ x, x ∈ pushed ↔ x ∈ ns ∧ dv x = (ns.count x : Int)) ∧
        (∀ x, mapGet (processNeighbors ns deg q).1 x =
          if x ∈ ns then some (dv x - (ns.count x : Int)) else mapGet deg x) := by
  intro ns
  induction ns with
  | nil =>
    intro dv deg q _ _
    exact ⟨[], by simp [processNeighbors], by simp, by simp, by simp [processNeighbors]⟩
  | cons n ns' ih =>
    intro dv deg q hdeg hbud
    have hn : mapGet deg n = some (dv n) := hdeg n (by simp)
    set deg1 := mapSet deg n (dv n - 1) with hdeg1def
    set q1 := if dv n - 1 = 0 then q ++ [n] else q with hq1def
    have hstep : processNeighbors (n :: ns') deg q = processNeighbors ns' deg1 q1 := by
      simp only [processNeighbors, List.foldl_cons, hn]
      by_cases h0 : dv n - 1 = 0
      · simp [hq1def, h0, hdeg1def]
      · simp [hq1def, h0, hdeg1def]
    set dv' : String → Int := fun x => if x = n then dv n - 1 else dv x with hdvPdef
    have hdeg' : ∀ x ∈ ns', mapGet deg1 x = some (dv' x) := by
      intro x hx
      by_cases hxn : x = n
      · subst hxn
        simp [hdeg1def, mapGet_mapSet_self, hdvPdef]
      · rw [hdeg1def, mapGet_mapSet_ne deg n x _ hxn, hdvPdef]
        simp [hxn]
        exact hdeg x (by simp [hx])
    have hbudn : 0 ≤ dv n - ((n :: ns').count n : Int) := hbud n (by simp)
    have hcount_n : ((n :: ns').count n : Int) = (ns'.count n : Int) + 1 := by
      simp [List.count_cons]
    have hbud' : ∀ x ∈ ns', 0 ≤ dv' x - (ns'.count x : Int) := by
      intro x hx
      by_cases hxn : x = n
      · rw [hxn]
        have hdvn : dv' n = dv n - 1 := by simp [hdvPdef]
        rw [hdvn]
        omega
      · have hdvx : dv' x = dv x := by simp [hdvPdef, hxn]
        rw [hdvx]
        have hcq : ((n :: ns').count x : Int) = (ns'.count x : Int) := by
          simp [List.count_cons, hxn]
        have hb := hbud x (by simp [hx])
        omega
    obtain ⟨pushed', hq', hndp', hmem', hget'⟩ := ih dv' deg1 q1 hdeg' hbud'
    refine ⟨(if dv n - 1 = 0 then [n] else []) ++ pushed', ?_, ?_, ?_, ?_⟩
    · rw [hstep, hq']
      by_cases h0 : dv n - 1 = 0
      · simp [hq1def, h0]
      · simp [hq1def, h0]
    · by_cases h0 : dv n - 1 = 0
      · rw [if_pos h0]
        simp only [List.singleton_append, List.nodup_cons]
        refine ⟨?_, hndp'⟩
        intro hmem
        have hthis := (hmem' n).mp hmem
        have hc : n ∈ ns' := hthis.1
        have heq : dv n - 1 = (ns'.count n : Int) := by
          have h2 := hthis.2
          rw [hdvPdef] at h2
          simpa using h2
        have hpos : 0 < ns'.count n := List.count_pos_iff.mpr hc
        omega
      · rw [if_neg h0]
        simpa using hndp'
    · intro x
      by_cases hxn : x = n
      · rw [hxn]
        constructor
        · intro hmem
          rcases List.mem_append.mp hmem with h1 | h1
          · by_cases h0 : dv n - 1 = 0
            · have hpos : 0 < ns'.count n + 1 := Nat.succ_pos _
              refine ⟨by simp, ?_⟩
              have hb : 0 ≤ dv n - ((n :: ns').count n : Int) := hbudn
              rw [hcount_n] at hb ⊢
              omega
            · rw [if_neg h0] at h1
              simp at h1
          · have hthis := (hmem' n).mp h1
            have hc : n ∈ ns' := hthis.1
            have heq : dv n - 1 = (ns'.count n : Int) := by
              have h2 := hthis.2
              rw [hdvPdef] at h2
              simpa using h2
            refine ⟨by simp, ?_⟩
            rw [hcount_n]
            omega
        · rintro ⟨-, heq⟩
          rw [hcount_n] at heq
          by_cases hc0 : ns'.count n = 0
          · have h1 : dv n - 1 = 0 := by omega
            rw [if_pos h1]
            simp
          · have hc : n ∈ ns' := List.count_pos_iff.mp (Nat.pos_of_ne_zero hc0)
            have hmem : n ∈ pushed' := by
              apply (hmem' n).mpr
              refine ⟨hc, ?_⟩
              have hdvn : dv' n = dv n - 1 := by simp [hdvPdef]
              rw [hdvn]
              omega
            exact List.mem_append.mpr (Or.inr hmem)
      · have hcx : ((n :: ns').count x : Int) = (ns'.count x : Int) := by
          simp [List.count_cons, hxn]
        constructor
        · intro hmem
          rcases List.mem_append.mp hmem with h1 | h1
          · by_cases h0 : dv n - 1 = 0
            · rw [if_pos h0] at h1
              simp at h1
              exact absurd h1 hxn
            · rw [if_neg h0] at h1
              simp at h1
          · have hthis := (hmem' x).mp h1
            have h2 := hthis.2
            have hdvx : dv' x = dv x := by simp [hdvPdef, hxn]
            rw [hdvx] at h2
            exact ⟨by simp [hthis.1], by rw [hcx]; exact h2⟩
        · rintro ⟨hmem, heq⟩
          have hx' : x ∈ ns' := by
            rcases List.mem_cons.mp hmem with h1 | h1
            · exact absurd h1 hxn
            · exact h1
          have hmem2 : x ∈ pushed' := by
            apply (hmem' x).mpr
            refine ⟨hx', ?_⟩
            have hdvx : dv' x = dv x := by simp [hdvPdef, hxn]
            rw [hdvx, ← hcx]
            exact heq
          exact List.mem_append.mpr (Or.inr hmem2)
    · intro x
      rw [hstep, hget' x]
      by_cases hxn : x = n
      · rw [hxn]
        by_cases hx' : n ∈ ns'
        · rw [if_pos hx', if_pos (List.mem_cons_self n ns')]
          have hdvn : dv' n = dv n - 1 := by simp [hdvPdef]
          rw [hdvn, hcount_n]
          congr 1
          omega
        · rw [if_neg hx', if_pos (List.mem_cons_self n ns')]
          rw [hdeg1def, mapGet_mapSet_self]
          have hc0 : ns'.count n = 0 := List.count_eq_zero.mpr hx'
          have h1 : ((n :: ns').count n : Int) = 1 := by
            rw [hcount_n, hc0]
            simp
          rw [h1]
      · by_cases hx' : x ∈ ns'
        · rw [if_pos hx', if_pos (by simp [hx'])]
          have hdvx : dv' x = dv x := by simp [hdvPdef, hxn]
          have h1 : ((n :: ns').count x : Int) = (ns'.count x : Int) := by
            simp [List.count_cons, hxn]
          rw [hdvx, h1]
        · have hxmem : x ∉ n :: ns' := by
            intro h
            rcases List.mem_cons.mp h with h1 | h1
            · exact hxn h1
            · exact hx' h1
          rw [if_neg hx', if_neg hxmem]
          rw [hdeg1def, mapGet_mapSet_ne deg n x _ hxn]

/-! ## Characterisation of the graph-building phase -/

theorem dependentsOf_cons (p : PluginDefinition) (R : List PluginDefinition) (d : String) :
    dependentsOf (p :: R) d =
      List.replicate ((depsOf p).count d) p.name ++ dependentsOf R d := by
  simp [dependentsOf, filter_map_const_replicate, length_filter_beq]

/-- Effect of one plugin's inner edge loop on both maps (the plugin's
own name must already be bound in the in-degree map, as the
initialisation fold guarantees). -/
theorem addEdgesInner_spec (p : PluginDefinition) :
    ∀ (ds : List String) (deg : JsMap Int) (adj : JsMap (List String)),
      (∃ v0, mapGet deg p.name = some v0) →
      (∀ x, mapGet (ds.foldl (addEdgeStep p) (deg, adj)).1 x =
        if x = p.name then some ((mapGet deg p.name).getD 0 + (ds.length : Int))
        else mapGet deg x) ∧
      (∀ d, mapGet (ds.foldl (addEdgeStep p) (deg, adj)).2 d =
        (mapGet adj d).map (fun l => l ++ List.replicate (ds.count d) p.name)) := by
  intro ds
  induction ds with
  | nil =>
    intro deg adj hsome
    obtain ⟨v0, hv0⟩ := hsome
    constructor
    · intro x
      simp only [List.foldl_nil]
      by_cases hx : x = p.name
      · rw [if_pos hx, hx, hv0]
        simp
      · rw [if_neg hx]
    · intro d
      simp only [List.foldl_nil]
      cases h : mapGet adj d with
      | none => simp
      | some l => simp
  | cons d0 ds ih =>
    intro deg adj hsome
    obtain ⟨v0, hv0⟩ := hsome
    have hunfold : (d0 :: ds).foldl (addEdgeStep p) (deg, adj) =
        ds.foldl (addEdgeStep p) (addEdgeStep p (deg, adj) d0) := by
      simp [List.foldl_cons]
    set deg1 := mapSet deg p.name ((mapGet deg p.name).getD 0 + 1) with hdeg1
    set adj1 := (match mapGet adj d0 with
      | some l => mapSet adj d0 (l ++ [p.name])
      | none => adj) with hadj1
    have hstep : addEdgeStep p (deg, adj) d0 = (deg1, adj1) := by
      simp [addEdgeStep, hdeg1, hadj1]
    have hsome1 : ∃ v, mapGet deg1 p.name = some v :=
      ⟨(mapGet deg p.name).getD 0 + 1, by rw [hdeg1, mapGet_mapSet_self]⟩
    obtain ⟨ihdeg, ihadj⟩ := ih deg1 adj1 hsome1
    constructor
    · intro x
      rw [hunfold, hstep, ihdeg x]
      by_cases hx : x = p.name
      · rw [if_pos hx, if_pos hx]
        have h1 : mapGet deg1 p.name = some ((mapGet deg p.name).getD 0 + 1) := by
          rw [hdeg1, mapGet_mapSet_self]
        rw [h1]
        simp only [Option.getD_some, List.length_cons]
        congr 1
        push_cast
        ring
      · rw [if_neg hx, if_neg hx]
        rw [hdeg1, mapGet_mapSet_ne deg p.name x _ hx]
    · intro d
      rw [hunfold, hstep, ihadj d]
      by_cases hd : d = d0
      · subst hd
        cases h : mapGet adj d with
        | none =>
          have h1 : mapGet adj1 d = none := by
            rw [hadj1, h]
            exact h
          rw [h1]
          simp
        | some l =>
          have h1 : mapGet adj1 d = some (l ++ [p.name]) := by
            rw [hadj1, h]
            exact mapGet_mapSet_self adj d (l ++ [p.name])
          rw [h1]
          simp only [Option.map_some']
          congr 1
          have hc : (d :: ds).count d = ds.count d + 1 := by
            simp [List.count_cons]
          rw [hc, List.replicate_succ, List.append_assoc]
          simp
      · have h1 : mapGet adj1 d = mapGet adj d := by
          rw [hadj1]
          cases h : mapGet adj d0 with
          | none => rfl
          | some l => exact mapGet_mapSet_ne adj d0 d _ hd
        rw [h1]
        have hne1 : d0 ≠ d := fun hcontra => hd hcontra.symm
        have hc : (d0 :: ds).count d = ds.count d := by
          simp [List.count_cons, hne1]
        rw [hc]

/-- Effect of the whole edge-building loop, for pairwise-distinct
names: each plugin's in-degree grows by the length of its dependency
list, and each adjacency list grows by `dependentsOf`. -/
theorem addEdges_spec :
    ∀ (R : List PluginDefinition) (deg : JsMap Int) (adj : JsMap (List String)),
      (namesOf R).Nodup →
      (∀ p ∈ R, (mapGet deg p.name).isSome) →
      (∀ p ∈ R, mapGet (addEdges R deg adj).1 p.name =
        some ((mapGet deg p.name).getD 0 + ((depsOf p).length : Int))) ∧
      (∀ x, x ∉ namesOf R → mapGet (addEdges R deg adj).1 x = mapGet deg x) ∧
      (∀ d, mapGet (addEdges R deg adj).2 d =
        (mapGet adj d).map (fun l => l ++ dependentsOf R d)) := by
  intro R
  induction R with
  | nil =>
    intro deg adj _ _
    refine ⟨by simp, by simp [addEdges], ?_⟩
    intro d
    cases h : mapGet adj d with
    | none => simp [addEdges, h]
    | some l => simp [addEdges, h, dependentsOf]
  | cons p R' ih =>
    intro deg adj hnd hpres
    have hnd2 : (p.name :: namesOf R').Nodup := hnd
    have hne : p.name ∉ namesOf R' := (List.nodup_cons.mp hnd2).1
    have hndR : (namesOf R').Nodup := (List.nodup_cons.mp hnd2).2
    have hsome : ∃ v0, mapGet deg p.name = some v0 := by
      have := hpres p (by simp)
      exact Option.isSome_iff_exists.mp this
    obtain ⟨hdegI, hadjI⟩ := addEdgesInner_spec p (depsOf p) deg adj hsome
    set s1 := (depsOf p).foldl (addEdgeStep p) (deg, adj) with hs1
    have hunfold : addEdges (p :: R') deg adj = addEdges R' s1.1 s1.2 := by
      simp [addEdges, List.foldl_cons, hs1]
    have hpres' : ∀ q ∈ R', (mapGet s1.1 q.name).isSome := by
      intro q hq
      rw [hdegI q.name]
      by_cases h : q.name = p.name
      · rw [if_pos h]
        simp
      · rw [if_neg h]
        exact hpres q (by simp [hq])
    obtain ⟨ih1, ih2, ih3⟩ := ih s1.1 s1.2 hndR hpres'
    refine ⟨?_, ?_, ?_⟩
    · intro q hq
      rcases List.mem_cons.mp hq with h1 | h1
      · subst h1
        rw [hunfold, ih2 q.name hne, hdegI q.name, if_pos rfl]
      · have hqn : q.name ∈ namesOf R' := List.mem_map_of_mem (·.name) h1
        have hqp : ¬q.name = p.name := by
          intro h
          exact hne (h ▸ hqn)
        rw [hunfold, ih1 q h1, hdegI q.name, if_neg hqp]
    · intro x hx
      have hx1 : ¬x = p.name := by
        intro h
        exact hx (by simp [namesOf, h])
      have hx2 : x ∉ namesOf R' := by
        intro h
        apply hx
        simp only [namesOf, List.map_cons]
        exact List.mem_cons_of_mem _ h
      rw [hunfold, ih2 x hx2, hdegI x, if_neg hx1]
    · intro d
      rw [hunfold, ih3 d, hadjI d, dependentsOf_cons]
      cases h : mapGet adj d with
      | none => simp
      | some l => simp

theorem addEdgesInner_keys (p : PluginDefinition) :
    ∀ (ds : List String) (deg : JsMap Int) (adj : JsMap (List String)),
      p.name ∈ keys deg →
      keys (ds.foldl (addEdgeStep p) (deg, adj)).1 = keys deg ∧
      keys (ds.foldl (addEdgeStep p) (deg, adj)).2 = keys adj := by
  intro ds
  induction ds with
  | nil => intro deg adj _; simp
  | cons d0 ds ih =>
    intro deg adj hmem
    have hk1 : keys (mapSet deg p.name ((mapGet deg p.name).getD 0 + 1)) = keys deg :=
      keys_mapSet_of_mem deg p.name _ hmem
    set adj1 := (match mapGet adj d0 with
      | some l => mapSet adj d0 (l ++ [p.name])
      | none => adj) with hadj1
    have hk2 : keys adj1 = keys adj := by
      rw [hadj1]
      cases h : mapGet adj d0 with
      | none => rfl
      | some l =>
        exact keys_mapSet_of_mem adj d0 _
          ((mapGet_isSome_iff adj d0).mp (by rw [h]; rfl))
    have hstep : addEdgeStep p (deg, adj) d0 =
        (mapSet deg p.name ((mapGet deg p.name).getD 0 + 1), adj1) := by
      simp [addEdgeStep, hadj1]
    have hmem1 : p.name ∈ keys (mapSet deg p.name ((mapGet deg p.name).getD 0 + 1)) := by
      rw [hk1]; exact hmem
    obtain ⟨ih1, ih2⟩ := ih _ adj1 hmem1
    constructor
    · rw [List.foldl_cons, hstep, ih1, hk1]
    · rw [List.foldl_cons, hstep, ih2, hk2]

theorem addEdges_keys :
    ∀ (R : List PluginDefinition) (deg : JsMap Int) (adj : JsMap (List String)),
      (∀ p ∈ R, p.name ∈ keys deg) →
      keys (addEdges R deg adj).1 = keys deg ∧
      keys (addEdges R deg adj).2 = keys adj := by
  intro R
  induction R with
  | nil => intro deg adj _; simp [addEdges]
  | cons p R' ih =>
    intro deg adj hmem
    obtain ⟨hk1, hk2⟩ := addEdgesInner_keys p (depsOf p) deg adj (hmem p (by simp))
    have hunfold : addEdges (p :: R') deg adj =
        addEdges R' ((depsOf p).foldl (addEdgeStep p) (deg, adj)).1
          ((depsOf p).foldl (addEdgeStep p) (deg, adj)).2 := by
      simp [addEdges, List.foldl_cons]
    have hmem' : ∀ q ∈ R', q.name ∈ keys ((depsOf p).foldl (addEdgeStep p) (deg, adj)).1 := by
      intro q hq
      rw [hk1]
      exact hmem q (by simp [hq])
    obtain ⟨ih1, ih2⟩ := ih _ _ hmem'
    rw [hunfold]
    exact ⟨by rw [ih1, hk1], by rw [ih2, hk2]⟩

theorem keys_initInDegree (P : List PluginDefinition) (hnd : (namesOf P).Nodup) :
    keys (initInDegree P) = namesOf P := by
  rw [initInDegree_eq P hnd]
  simp [keys, namesOf]

theorem keys_deg_built (P : List PluginDefinition) (hnd : (namesOf P).Nodup) :
    keys (addEdges P (initInDegree P) (initAdjacency P)).1 = namesOf P := by
  have hmem : ∀ p ∈ P, p.name ∈ keys (initInDegree P) := by
    intro p hp
    rw [keys_initInDegree P hnd]
    exact List.mem_map_of_mem (·.name) hp
  rw [(addEdges_keys P (initInDegree P) (initAdjacency P) hmem).1, keys_initInDegree P hnd]

/-! ## `seedQueue` characterisation -/

theorem seedQueue_sublist (m : JsMap Int) : (seedQueue m).Sublist (keys m) := by
  unfold seedQueue keys
  exact (List.filter_sublist m).map _

theorem seedQueue_nodup (m : JsMap Int) (hk : (keys m).Nodup) : (seedQueue m).Nodup :=
  hk.sublist (seedQueue_sublist m)

theorem mem_seedQueue (m : JsMap Int) (hk : (keys m).Nodup) (x : String) :
    x ∈ seedQueue m ↔ mapGet m x = some 0 := by
  constructor
  · intro hx
    obtain ⟨e, he, hex⟩ := List.mem_map.mp hx
    have hmem := List.mem_of_mem_filter he
    have hval : e.2 = 0 := by
      have := List.of_mem_filter he
      simpa using this
    have : mapGet m e.1 = some e.2 := mem_mapGet m hk e.1 e.2 (by cases e; exact hmem)
    rw [hex, hval] at this
    exact this
  · intro hx
    have hmem : (x, (0 : Int)) ∈ m := mapGet_some_mem m x 0 hx
    have hfil : (x, (0 : Int)) ∈ m.filter (fun e => decide (e.2 = 0)) :=
      List.mem_filter.mpr ⟨hmem, by simp⟩
    exact List.mem_map.mpr ⟨(x, 0), hfil, rfl⟩

/-! ## Remaining-degree bookkeeping for the loop invariant -/

theorem remDeg_nonneg (P : List PluginDefinition) (resN : List String) (x : String) :
    0 ≤ remDeg P resN x := by
  simp [remDeg]

theorem remDeg_zero_iff (P : List PluginDefinition) (resN : List String) (x : String) :
    remDeg P resN x = 0 ↔ ∀ d ∈ depsIn P x, d ∈ resN := by
  unfold remDeg
  rw [show ((((depsIn P x).filter (fun d => decide (d ∉ resN))).length : Int) = 0 ↔
      ((depsIn P x).filter (fun d => decide (d ∉ resN))).length = 0) by exact_mod_cast Iff.rfl]
  rw [List.length_eq_zero, List.filter_eq_nil_iff]
  constructor
  · intro h d hd
    have := h d hd
    simpa using this
  · intro h d hd
    simpa using h d hd

theorem count_le_remDeg (P : List PluginDefinition) (resN : List String) (c x : String)
    (hc : c ∉ resN) : ((depsIn P x).count c : Int) ≤ remDeg P resN x := by
  unfold remDeg
  have h1 : ((depsIn P x).filter (fun d => decide (d ∉ resN))).count c = (depsIn P x).count c := by
    rw [List.count_filter (by simpa using hc)]
  have h2 := List.count_le_length c ((depsIn P x).filter (fun d => decide (d ∉ resN)))
  rw [h1] at h2
  exact_mod_cast h2

theorem filter_notmem_append (l : List String) (resN : List String) (c : String) :
    l.filter (fun d => decide (d ∉ resN ++ [c])) =
      (l.filter (fun d => decide (d ∉ resN))).filter (fun d => !(d == c)) := by
  rw [List.filter_filter]
  apply List.filter_congr
  intro d _
  by_cases h1 : d ∈ resN
  · simp [h1]
  · by_cases h2 : d = c
    · simp [h1, h2]
    · simp [h1, h2]

theorem remDeg_append (P : List PluginDefinition) (resN : List String) (c x : String)
    (hc : c ∉ resN) :
    remDeg P (resN ++ [c]) x = remDeg P resN x - ((depsIn P x).count c : Int) := by
  unfold remDeg
  rw [filter_notmem_append]
  set l' := (depsIn P x).filter (fun d => decide (d ∉ resN)) with hl'
  have hsplit : l'.length = l'.countP (fun d => d == c) + l'.countP (fun d => !(d == c)) := by
    induction l' with
    | nil => simp
    | cons a l ih =>
      by_cases h : (a == c) = true
      · simp [List.countP_cons, h, ih]
        omega
      · have h2 : (a == c) = false := by simpa using h
        simp [List.countP_cons, h2, ih]
        omega
  have hcnt : l'.countP (fun d => d == c) = (depsIn P x).count c := by
    rw [show l'.countP (fun d => d == c) = l'.count c from rfl, hl']
    rw [List.count_filter (by simpa using hc)]
  have hlen : (l'.filter (fun d => !(d == c))).length = l'.countP (fun d => !(d == c)) := by
    rw [List.countP_eq_length_filter]
  rw [hlen]
  omega

theorem remDeg_eq_count_of_sub (P : List PluginDefinition) (resN : List String) (c x : String)
    (hc : c ∉ resN) (hsub : ∀ d ∈ depsIn P x, d ∈ resN ++ [c]) :
    remDeg P resN x = ((depsIn P x).count c : Int) := by
  unfold remDeg
  have hfe : (depsIn P x).filter (fun d => decide (d ∉ resN)) =
      (depsIn P x).filter (fun d => d == c) := by
    apply List.filter_congr
    intro d hd
    by_cases h1 : d ∈ resN
    · have h2 : ¬d = c := fun h => hc (h ▸ h1)
      simp [h1, h2]
    · have h2 : d = c := by
        rcases List.mem_append.mp (hsub d hd) with h3 | h3
        · exact absurd h3 h1
        · simpa using h3
      subst h2
      simp [hc]
  rw [hfe, length_filter_beq]

/-- In-degree map after graph building: defined exactly on the declared
names, with value the length of the plugin's dependency list. -/
theorem deg_built (P : List PluginDefinition) (hnd : (namesOf P).Nodup) :
    ∀ x, mapGet (addEdges P (initInDegree P) (initAdjacency P)).1 x =
      if x ∈ namesOf P then some (((depsIn P x).length : Int)) else none := by
  intro x
  have hpres0 : ∀ p ∈ P, (mapGet (initInDegree P) p.name).isSome := by
    intro p hp
    rw [initInDegree_eq P hnd, mapGet_tab, find?_eq_of_mem P hnd p hp]
    simp
  obtain ⟨h1, h2, _⟩ := addEdges_spec P (initInDegree P) (initAdjacency P) hnd hpres0
  by_cases hx : x ∈ namesOf P
  · obtain ⟨p, hp, hpn⟩ := List.mem_map.mp hx
    rw [if_pos hx, ← hpn, h1 p hp]
    rw [initInDegree_eq P hnd, mapGet_tab, find?_eq_of_mem P hnd p hp]
    rw [← hpn] at hx
    simp [depsIn_eq P hnd p hp]
  · rw [if_neg hx, h2 x hx]
    rw [initInDegree_eq P hnd, mapGet_tab]
    cases h : P.find? (fun p => p.name == x) with
    | none => simp
    | some p =>
      exfalso
      have hpP := List.mem_of_find?_eq_some h
      have := List.find?_some h
      have hpn : p.name = x := by simpa using this
      exact hx (hpn ▸ List.mem_map_of_mem (·.name) hpP)

/-- Adjacency map after graph building. -/
theorem adj_built (P : List PluginDefinition) (hnd : (namesOf P).Nodup) :
    ∀ d, mapGet (addEdges P (initInDegree P) (initAdjacency P)).2 d =
      if d ∈ namesOf P then some (dependentsOf P d) else none := by
  intro d
  have hpres0 : ∀ p ∈ P, (mapGet (initInDegree P) p.name).isSome := by
    intro p hp
    rw [initInDegree_eq P hnd, mapGet_tab, find?_eq_of_mem P hnd p hp]
    simp
  obtain ⟨_, _, h3⟩ := addEdges_spec P (initInDegree P) (initAdjacency P) hnd hpres0
  rw [h3 d, initAdjacency_eq P hnd, mapGet_tab]
  by_cases hd : d ∈ namesOf P
  · obtain ⟨p, hp, hpn⟩ := List.mem_map.mp hd
    rw [if_pos hd, ← hpn, find?_eq_of_mem P hnd p hp]
    simp
  · rw [if_neg hd]
    cases h : P.find? (fun p => p.name == d) with
    | none => simp
    | some p =>
      exfalso
      have hpP := List.mem_of_find?_eq_some h
      have := List.find?_some h
      have hpn : p.name = d := by simpa using this
      exact hd (hpn ▸ List.mem_map_of_mem (·.name) hpP)

theorem nodup_subset_length (l₁ l₂ : List String) (h : l₁.Nodup) (hs : l₁ ⊆ l₂) :
    l₁.length ≤ l₂.length := by
  classical
  calc l₁.length = l₁.toFinset.card := (List.toFinset_card_of_nodup h).symm
  _ ≤ l₂.toFinset.card := Finset.card_le_card (fun a ha => by
      simp only [List.mem_toFinset] at ha ⊢
      exact hs ha)
  _ ≤ l₂.length := l₂.toFinset_card_le

theorem mem_depsIn (P : List PluginDefinition) (x d : String) (hd : d ∈ depsIn P x) :
    ∃ p ∈ P, p.name = x ∧ d ∈ depsOf p := by
  unfold depsIn at hd
  cases h : P.find? (fun p => p.name == x) with
  | none => rw [h] at hd; simp at hd
  | some p =>
    rw [h] at hd
    simp only [Option.map_some', Option.getD_some] at hd
    exact ⟨p, List.mem_of_find?_eq_some h, by simpa using List.find?_some h, hd⟩

theorem depsIn_subset_names (P : List PluginDefinition) (hcl : DepClosed P) (x d : String)
    (hd : d ∈ depsIn P x) : d ∈ namesOf P := by
  obtain ⟨p, hp, _, hdp⟩ := mem_depsIn P x d hd
  exact hcl p hp d hdp

theorem depsRespected_append (P : List PluginDefinition) (res : List PluginDefinition)
    (hresp : DepsRespected P res) (pc : PluginDefinition)
    (hdeps : ∀ d ∈ depsIn P pc.name, d ∈ res.map (fun p => p.name)) :
    DepsRespected P (res ++ [pc]) := by
  intro j hj
  by_cases hlt : j < res.length
  · have hget : (res ++ [pc]).get ⟨j, hj⟩ = res.get ⟨j, hlt⟩ := by
      simp [List.getElem_append, hlt]
    have htake : (res ++ [pc]).take j = res.take j :=
      List.take_append_of_le_length (Nat.le_of_lt hlt)
    rw [hget, htake]
    exact hresp j hlt
  · have hj' : j = res.length := by
      simp only [List.length_append, List.length_singleton] at hj
      omega
    subst hj'
    have hget : (res ++ [pc]).get ⟨res.length, hj⟩ = pc := by
      simp
    have htake : (res ++ [pc]).take res.length = res := by
      rw [List.take_append_of_le_length (Nat.le_refl _), List.take_length]
    rw [hget, htake]
    exact hdeps

/-! ## The Kahn loop invariant -/

theorem kahnInv_terminal (P : List PluginDefinition) (deg : JsMap Int)
    (res : List PluginDefinition) (inv : KahnInv P [] deg res) : KahnOut P res := by
  refine ⟨inv.sub_res, ?_, inv.order, ?_⟩
  · have h := inv.nodup
    simpa using h
  · intro x hx hdeps
    have h0 : remDeg P (res.map (fun p => p.name)) x = 0 :=
      (remDeg_zero_iff P _ x).mpr hdeps
    rcases inv.ready x hx h0 with h | h
    · exact h
    · simp at h

/-- One iteration of the loop preserves the invariant. -/
theorem kahn_step (P : List PluginDefinition) (hnd : (namesOf P).Nodup)
    (c : String) (rest : List String) (deg : JsMap Int) (res : List PluginDefinition)
    (inv : KahnInv P (c :: rest) deg res) (pc : PluginDefinition) (hpc : pc ∈ P)
    (hpcn : pc.name = c) :
    KahnInv P (processNeighbors (dependentsOf P c) deg rest).2
      (processNeighbors (dependentsOf P c) deg rest).1 (res ++ [pc]) := by
  set resN := res.map (fun p => p.name) with hresN
  have hcq : c ∈ c :: rest := by simp
  have hcnames : c ∈ namesOf P := inv.sub_q c hcq
  have hcres : c ∉ resN := by
    have hdisj := List.disjoint_of_nodup_append inv.nodup
    exact fun h => hdisj h hcq
  have hcrest : c ∉ rest := by
    have h := inv.nodup
    have h2 : (c :: rest).Nodup := (List.nodup_append.mp h).2.1
    exact (List.nodup_cons.mp h2).1
  set ns := dependentsOf P c with hns
  set dv := remDeg P resN with hdv
  have hcnt : ∀ x, ns.count x = (depsIn P x).count c := by
    intro x
    rw [hns, count_dependentsOf P hnd x c]
  have hdeg0 : ∀ x ∈ ns, mapGet deg x = some (dv x) := by
    intro x hx
    exact inv.deg_eq x (mem_dependentsOf P c x hx)
  have hbud : ∀ x ∈ ns, 0 ≤ dv x - (ns.count x : Int) := by
    intro x _
    rw [hcnt x, hdv]
    have := count_le_remDeg P resN c x hcres
    omega
  obtain ⟨pushed, hq2, hnodupP, hmemP, hget⟩ :=
    processNeighbors_spec ns dv deg rest hdeg0 hbud
  have hresN' : (res ++ [pc]).map (fun p => p.name) = resN ++ [c] := by
    simp [hresN, hpcn]
  -- names appearing in `pushed` have positive remaining degree, hence are
  -- neither resolved nor already queued
  have hpushed_fresh : ∀ x ∈ pushed, x ∉ resN ∧ x ≠ c ∧ x ∉ rest := by
    intro x hx
    obtain ⟨hxns, hxdv⟩ := (hmemP x).mp hx
    have hxpos : 0 < ns.count x := List.count_pos_iff.mpr hxns
    have hdvpos : 0 < dv x := by omega
    refine ⟨?_, ?_, ?_⟩
    · intro hmem
      have h0 : remDeg P resN x = 0 :=
        (remDeg_zero_iff P resN x).mpr (inv.res_deps x hmem)
      rw [hdv] at hdvpos
      omega
    · intro hmem
      subst hmem
      have h0 : remDeg P resN x = 0 :=
        (remDeg_zero_iff P resN x).mpr (inv.q_deps x hcq)
      rw [hdv] at hdvpos
      omega
    · intro hmem
      have h0 : remDeg P resN x = 0 :=
        (remDeg_zero_iff P resN x).mpr (inv.q_deps x (by simp [hmem]))
      rw [hdv] at hdvpos
      omega
  refine ⟨?_, ?_, ?_, ?_, ?_, ?_, ?_, ?_⟩
  · intro p hp
    rcases List.mem_append.mp hp with h | h
    · exact inv.sub_res p h
    · simp at h
      exact h ▸ hpc
  · intro x hx
    rw [hq2] at hx
    rcases List.mem_append.mp hx with h | h
    · exact inv.sub_q x (by simp [h])
    · exact mem_dependentsOf P c x ((hmemP x).mp h).1
  · rw [hresN', hq2]
    have hbase : ((resN ++ [c]) ++ rest).Nodup := by
      have h := inv.nodup
      rw [show resN ++ c :: rest = (resN ++ [c]) ++ rest by simp] at h
      exact h
    rw [show (resN ++ [c]) ++ (rest ++ pushed) = ((resN ++ [c]) ++ rest) ++ pushed by
      simp [List.append_assoc]]
    rw [List.nodup_append]
    refine ⟨hbase, hnodupP, ?_⟩
    intro x hxl hxp
    obtain ⟨hx1, hx2, hx3⟩ := hpushed_fresh x hxp
    rcases List.mem_append.mp hxl with h | h
    · rcases List.mem_append.mp h with h' | h'
      · exact hx1 h'
      · simp at h'
        exact hx2 h'
    · exact hx3 h
  · intro x hx
    rw [hresN', hget x]
    by_cases hxns : x ∈ ns
    · rw [if_pos hxns]
      rw [remDeg_append P resN c x hcres, ← hcnt x, hdv]
    · rw [if_neg hxns]
      have hc0 : ns.count x = 0 := List.count_eq_zero.mpr hxns
      have hc0' : (depsIn P x).count c = 0 := by
        rw [← hcnt x, hc0]
      rw [inv.deg_eq x hx, remDeg_append P resN c x hcres, hc0']
      simp [hdv]
  · intro x hx h0
    rw [hresN'] at h0 ⊢
    rw [hq2]
    have hsum : remDeg P resN x = ((depsIn P x).count c : Int) := by
      have := remDeg_append P resN c x hcres
      omega
    by_cases hcc : (depsIn P x).count c = 0
    · have h00 : remDeg P resN x = 0 := by
        rw [hsum, hcc]
        simp
      rcases inv.ready x hx h00 with h | h
      · exact Or.inl (List.mem_append.mpr (Or.inl h))
      · rcases List.mem_cons.mp h with h' | h'
        · exact Or.inl (List.mem_append.mpr (Or.inr (by simp [h'])))
        · exact Or.inr (List.mem_append.mpr (Or.inl h'))
    · have hxns : x ∈ ns := by
        rw [← List.count_pos_iff, hcnt x]
        omega
      have hxp : x ∈ pushed := by
        apply (hmemP x).mpr
        refine ⟨hxns, ?_⟩
        rw [hcnt x, hdv, hsum]
      exact Or.inr (List.mem_append.mpr (Or.inr hxp))
  · intro x hx
    rw [hq2] at hx
    rw [hresN']
    rcases List.mem_append.mp hx with h | h
    · intro d hd
      exact List.mem_append.mpr (Or.inl (inv.q_deps x (by simp [h]) d hd))
    · obtain ⟨hxns, hxdv⟩ := (hmemP x).mp h
      have h0 : remDeg P (resN ++ [c]) x = 0 := by
        rw [remDeg_append P resN c x hcres, ← hcnt x]
        rw [hdv] at hxdv
        omega
      exact (remDeg_zero_iff P _ x).mp h0
  · intro x hx
    rw [hresN'] at hx ⊢
    rcases List.mem_append.mp hx with h | h
    · intro d hd
      exact List.mem_append.mpr (Or.inl (inv.res_deps x h d hd))
    · simp at h
      subst h
      intro d hd
      exact List.mem_append.mpr (Or.inl (inv.q_deps x hcq d hd))
  · apply depsRespected_append P res inv.order pc
    rw [hpcn]
    exact inv.q_deps c hcq

/-- The loop, run with enough fuel from an invariant state, yields a
`KahnOut` result.  `fuel = P.length` always suffices because the result
grows by one name per iteration and never repeats a name. -/
theorem kahnLoop_spec (P : List PluginDefinition) (hnd : (namesOf P).Nodup)
    (pm : JsMap PluginDefinition) (adj : JsMap (List String))
    (hpm : ∀ p ∈ P, mapGet pm p.name = some p)
    (hadj : ∀ d ∈ namesOf P, mapGet adj d = some (dependentsOf P d)) :
    ∀ (fuel : Nat) (q : List String) (deg : JsMap Int) (res : List PluginDefinition),
      KahnInv P q deg res → P.length ≤ res.length + fuel →
      KahnOut P (kahnLoop pm adj fuel q deg res) := by
  intro fuel
  induction fuel with
  | zero =>
    intro q deg res inv hlen
    cases q with
    | nil => exact kahnInv_terminal P deg res inv
    | cons c rest =>
      exfalso
      have hsub : res.map (fun p => p.name) ++ c :: rest ⊆ namesOf P := by
        intro x hx
        rcases List.mem_append.mp hx with h | h
        · obtain ⟨p, hp, hpn⟩ := List.mem_map.mp h
          exact hpn ▸ List.mem_map_of_mem (·.name) (inv.sub_res p hp)
        · exact inv.sub_q x h
      have hle := nodup_subset_length _ _ inv.nodup hsub
      simp only [List.length_append, List.length_map, List.length_cons] at hle
      have : (namesOf P).length = P.length := by simp [namesOf]
      omega
  | succ f ih =>
    intro q deg res inv hlen
    cases q with
    | nil => exact kahnInv_terminal P deg res inv
    | cons c rest =>
      have hcnames : c ∈ namesOf P := inv.sub_q c (by simp)
      obtain ⟨pc, hpc, hpcn⟩ := List.mem_map.mp hcnames
      have hlookup : mapGet pm c = some pc := hpcn ▸ hpm pc hpc
      have hadjc : mapGet adj c = some (dependentsOf P c) := hadj c hcnames
      have hunfold : kahnLoop pm adj (f + 1) (c :: rest) deg res =
          kahnLoop pm adj f (processNeighbors (dependentsOf P c) deg rest).2
            (processNeighbors (dependentsOf P c) deg rest).1 (res ++ [pc]) := by
        simp [kahnLoop, hlookup, hadjc]
      rw [hunfold]
      apply ih _ _ _ (kahn_step P hnd c rest deg res inv pc hpc hpcn)
      simp only [List.length_append, List.length_singleton]
      omega

/-- On an acyclic declared set, the loop output contains every declared
name: otherwise the set of unresolved names would have a minimal element
for the (well-founded, because finite and acyclic) dependency relation,
yet every unresolved name has an unresolved dependency. -/
theorem kahnOut_complete (P : List PluginDefinition) (hcl : DepClosed P) (hac : Acyclic P)
    (out : List PluginDefinition) (ho : KahnOut P out) :
    ∀ x ∈ namesOf P, x ∈ out.map (fun p => p.name) := by
  classical
  by_contra hno
  push_neg at hno
  obtain ⟨x0, hx0, hx0out⟩ := hno
  set s := (namesOf P).toFinset with hs
  set E : {y // y ∈ s} → {y // y ∈ s} → Prop := fun a b => depEdge P a.1 b.1 with hE
  have hlift : ∀ {a b : {y // y ∈ s}},
      Relation.TransGen E a b → Relation.TransGen (depEdge P) a.1 b.1 := by
    intro a b h
    induction h with
    | single h => exact Relation.TransGen.single h
    | tail _ h ih => exact Relation.TransGen.tail ih h
  haveI : IsTrans {y // y ∈ s} (Relation.TransGen E) :=
    ⟨fun _ _ _ h1 h2 => Relation.TransGen.trans h1 h2⟩
  haveI : IsIrrefl {y // y ∈ s} (Relation.TransGen E) :=
    ⟨fun a h => hac a.1 (hlift h)⟩
  have hwf : WellFounded E :=
    Subrelation.wf (fun h => Relation.TransGen.single h)
      (Finite.wellFounded_of_trans_of_irrefl (Relation.TransGen E))
  have hx0s : x0 ∈ s := by
    rw [hs, List.mem_toFinset]
    exact hx0
  set U : Set {y // y ∈ s} := {t | t.1 ∉ out.map (fun p => p.name)} with hU
  have hU_ne : U.Nonempty := ⟨⟨x0, hx0s⟩, hx0out⟩
  obtain ⟨m, hmU, hmin⟩ := hwf.has_min U hU_ne
  have hm_names : m.1 ∈ namesOf P := List.mem_toFinset.mp (hs ▸ m.2)
  have hnm : ¬(∀ d ∈ depsIn P m.1, d ∈ out.map (fun p => p.name)) := by
    intro hall
    exact hmU (ho.closed m.1 hm_names hall)
  push_neg at hnm
  obtain ⟨d, hd, hdout⟩ := hnm
  have hd_names : d ∈ namesOf P := depsIn_subset_names P hcl m.1 d hd
  have hedge : depEdge P d m.1 := by
    obtain ⟨p, hp, hpn, hdp⟩ := mem_depsIn P m.1 d hd
    exact ⟨p, hp, hpn, hdp⟩
  have hds : d ∈ s := by
    rw [hs, List.mem_toFinset]
    exact hd_names
  exact hmin ⟨d, hds⟩ hdout hedge

/-- The state after initialisation satisfies the loop invariant. -/
theorem kahnInv_init (P : List PluginDefinition) (hnd : (namesOf P).Nodup) :
    KahnInv P (seedQueue (addEdges P (initInDegree P) (initAdjacency P)).1)
      (addEdges P (initInDegree P) (initAdjacency P)).1 [] := by
  set degF := (addEdges P (initInDegree P) (initAdjacency P)).1 with hdegF
  have hkeys : keys degF = namesOf P := keys_deg_built P hnd
  have hknd : (keys degF).Nodup := by rw [hkeys]; exact hnd
  have hget : ∀ x, mapGet degF x =
      if x ∈ namesOf P then some (((depsIn P x).length : Int)) else none :=
    deg_built P hnd
  have hsubq : ∀ x ∈ seedQueue degF, x ∈ namesOf P := by
    intro x hx
    rw [← hkeys]
    exact (seedQueue_sublist degF).subset hx
  have hzero : ∀ x ∈ seedQueue degF, depsIn P x = [] := by
    intro x hx
    have h0 := (mem_seedQueue degF hknd x).mp hx
    rw [hget x, if_pos (hsubq x hx)] at h0
    have : ((depsIn P x).length : Int) = 0 := by
      injection h0
    have h2 : (depsIn P x).length = 0 := by exact_mod_cast this
    exact List.length_eq_zero.mp h2
  refine ⟨by simp, hsubq, ?_, ?_, ?_, ?_, by simp, ?_⟩
  · simpa using seedQueue_nodup degF hknd
  · intro x hx
    rw [hget x, if_pos hx]
    congr 1
    simp [remDeg]
  · intro x hx h0
    right
    rw [mem_seedQueue degF hknd x, hget x, if_pos hx]
    have h2 : depsIn P x = [] := by simpa [remDeg] using h0
    rw [h2]
    simp
  · intro x hx d hd
    rw [hzero x hx] at hd
    simp at hd
  · intro j hj
    simp at hj

/-- The referential-integrity scan succeeds when every dependency is
declared. -/
theorem findMissingDep_eq_none (pm : JsMap PluginDefinition) :
    ∀ (R : List PluginDefinition),
      (∀ p ∈ R, ∀ d ∈ depsOf p, mapHas pm d) → findMissingDep pm R = none := by
  intro R
  induction R with
  | nil => intro _; rfl
  | cons p R' ih =>
    intro h
    unfold findMissingDep
    have hfind : (depsOf p).find? (fun d => !(mapHas pm d)) = none := by
      rw [List.find?_eq_none]
      intro d hd
      simp [h p (by simp) d hd]
    rw [hfind]
    exact ih (fun q hq d hd => h q (by simp [hq]) d hd)

/-! ## Resolver-level results -/

theorem buildPluginMap_get (P : List PluginDefinition) (hnd : (namesOf P).Nodup) :
    ∀ p ∈ P, mapGet (buildPluginMap P) p.name = some p := by
  intro p hp
  rw [buildPluginMap_eq P hnd, mapGet_tab, find?_eq_of_mem P hnd p hp]
  rfl

theorem resolveDependencies_run (P : List PluginDefinition)
    (hfmd : findMissingDep (buildPluginMap P) P = none) :
    resolveDependencies P =
      if (kahnRun P).length ≠ P.length then
        .error (.validation (circularMsg (remainingNames P (kahnRun P))))
      else .ok (kahnRun P) := by
  unfold resolveDependencies kahnRun
  simp only [hfmd]

theorem findMissingDep_none_of_closed (P : List PluginDefinition)
    (hnd : (namesOf P).Nodup) (hcl : DepClosed P) :
    findMissingDep (buildPluginMap P) P = none := by
  apply findMissingDep_eq_none
  intro p hp d hd
  have hdn : d ∈ namesOf P := hcl p hp d hd
  obtain ⟨q, hq, _, _⟩ := find?_name_of_mem P d hdn
  rw [mapHas, buildPluginMap_eq P hnd, mapGet_tab, hq]
  rfl

theorem kahnRun_out (P : List PluginDefinition) (hnd : (namesOf P).Nodup) :
    KahnOut P (kahnRun P) := by
  apply kahnLoop_spec P hnd (buildPluginMap P)
    (addEdges P (initInDegree P) (initAdjacency P)).2
    (buildPluginMap_get P hnd)
    (fun d hd => by rw [adj_built P hnd d, if_pos hd])
    P.length _ _ [] (kahnInv_init P hnd)
  simp

theorem kahnRun_complete (P : List PluginDefinition) (hnd : (namesOf P).Nodup)
    (hcl : DepClosed P) (hac : Acyclic P) :
    ∀ x ∈ namesOf P, x ∈ (kahnRun P).map (fun p => p.name) :=
  kahnOut_complete P hcl hac (kahnRun P) (kahnRun_out P hnd)

theorem kahnRun_length (P : List PluginDefinition) (hnd : (namesOf P).Nodup)
    (hcl : DepClosed P) (hac : Acyclic P) : (kahnRun P).length = P.length := by
  have ho := kahnRun_out P hnd
  have h1 : ((kahnRun P).map (fun p => p.name)).length ≤ (namesOf P).length := by
    apply nodup_subset_length _ _ ho.nodup
    intro x hx
    obtain ⟨p, hp, hpn⟩ := List.mem_map.mp hx
    exact hpn ▸ List.mem_map_of_mem (·.name) (ho.sub p hp)
  have h2 : (namesOf P).length ≤ ((kahnRun P).map (fun p => p.name)).length := by
    apply nodup_subset_length _ _ hnd
    exact fun x hx => kahnRun_complete P hnd hcl hac x hx
  simp only [List.length_map] at h1 h2
  have h3 : (namesOf P).length = P.length := by simp [namesOf]
  omega

theorem resolveDependencies_acyclic_ok (P : List PluginDefinition)
    (hnd : (namesOf P).Nodup) (hcl : DepClosed P) (hac : Acyclic P) :
    resolveDependencies P = .ok (kahnRun P) := by
  rw [resolveDependencies_run P (findMissingDep_none_of_closed P hnd hcl)]
  rw [if_neg]
  intro h
  exact h (kahnRun_length P hnd hcl hac)

theorem kahnRun_perm (P : List PluginDefinition) (hnd : (namesOf P).Nodup)
    (hcl : DepClosed P) (hac : Acyclic P) : List.Perm (kahnRun P) P := by
  have ho := kahnRun_out P hnd
  have hndP : P.Nodup := by
    apply List.Nodup.of_map (fun p => p.name)
    exact hnd
  have hndO : (kahnRun P).Nodup := List.Nodup.of_map _ ho.nodup
  rw [List.perm_ext_iff_of_nodup hndO hndP]
  intro p
  constructor
  · exact ho.sub p
  · intro hp
    have hn : p.name ∈ (kahnRun P).map (fun q => q.name) :=
      kahnRun_complete P hnd hcl hac p.name (List.mem_map_of_mem (·.name) hp)
    obtain ⟨q, hq, hqn⟩ := List.mem_map.mp hn
    have : q = p := name_inj P hnd q (ho.sub q hq) p hp hqn
    exact this ▸ hq

/-! ## Index-order consequences of `DepsRespected` -/

theorem index_lt_of_edge (P : List PluginDefinition) (hnd : (namesOf P).Nodup)
    (out : List PluginDefinition) (ho : DepsRespected P out) (a b : String)
    (he : depEdge P a b) (hb : b ∈ out.map (fun p => p.name)) :
    a ∈ out.map (fun p => p.name) ∧
      (out.map (fun p => p.name)).indexOf a < (out.map (fun p => p.name)).indexOf b := by
  set outN := out.map (fun p => p.name) with houtN
  have hj : outN.indexOf b < outN.length := List.indexOf_lt_length.mpr hb
  have hj' : outN.indexOf b < out.length := by
    simpa [houtN] using hj
  have hgetN : outN.get ⟨outN.indexOf b, hj⟩ = b := List.indexOf_get hj
  have h1 : outN.get ⟨outN.indexOf b, hj⟩ = (out.get ⟨outN.indexOf b, hj'⟩).name := by
    simp only [houtN, List.get_eq_getElem, List.getElem_map]
  have hgetname : (out.get ⟨outN.indexOf b, hj'⟩).name = b := by
    rw [← h1]
    exact hgetN
  have hdeps := ho (outN.indexOf b) hj'
  rw [hgetname] at hdeps
  have hab : a ∈ depsIn P b := by
    obtain ⟨p, hp, hpn, hdp⟩ := he
    rw [← hpn, depsIn_eq P hnd p hp]
    exact hdp
  have hatake : a ∈ outN.take (outN.indexOf b) := by
    have h2 := hdeps a hab
    rw [houtN, ← List.map_take]
    exact h2
  constructor
  · exact List.mem_of_mem_take hatake
  · have heq : outN.indexOf a = (outN.take (outN.indexOf b)).indexOf a := by
      conv_lhs => rw [← List.take_append_drop (outN.indexOf b) outN]
      rw [List.indexOf_append_of_mem hatake]
    rw [heq]
    calc (outN.take (outN.indexOf b)).indexOf a
        < (outN.take (outN.indexOf b)).length := List.indexOf_lt_length.mpr hatake
    _ ≤ outN.indexOf b := List.length_take_le _ _

theorem index_lt_of_transGen (P : List PluginDefinition) (hnd : (namesOf P).Nodup)
    (out : List PluginDefinition) (ho : DepsRespected P out) (a b : String)
    (h : Relation.TransGen (depEdge P) a b) (hb : b ∈ out.map (fun p => p.name)) :
    a ∈ out.map (fun p => p.name) ∧
      (out.map (fun p => p.name)).indexOf a < (out.map (fun p => p.name)).indexOf b := by
  induction h with
  | single h1 => exact index_lt_of_edge P hnd out ho _ _ h1 hb
  | tail _ h2 ih =>
    obtain ⟨hmem, hlt⟩ := index_lt_of_edge P hnd out ho _ _ h2 hb
    obtain ⟨hmem2, hlt2⟩ := ih hmem
    exact ⟨hmem2, Nat.lt_trans hlt2 hlt⟩

theorem cycle_not_mem (P : List PluginDefinition) (hnd : (namesOf P).Nodup)
    (out : List PluginDefinition) (ho : DepsRespected P out) (x : String)
    (hx : Relation.TransGen (depEdge P) x x) : x ∉ out.map (fun p => p.name) := by
  intro hmem
  obtain ⟨_, hlt⟩ := index_lt_of_transGen P hnd out ho x x hx hmem
  omega

theorem reachable_not_mem (P : List PluginDefinition) (hnd : (namesOf P).Nodup)
    (out : List PluginDefinition) (ho : DepsRespected P out) (x y : String)
    (hx : Relation.TransGen (depEdge P) x x)
    (hreach : Relation.ReflTransGen (depEdge P) x y) :
    y ∉ out.map (fun p => p.name) := by
  rcases (Relation.reflTransGen_iff_eq_or_transGen).mp hreach with h | h
  · exact h ▸ cycle_not_mem P hnd out ho x hx
  · intro hmem
    have := (index_lt_of_transGen P hnd out ho x y h hmem).1
    exact cycle_not_mem P hnd out ho x hx this

theorem transGen_target_names (P : List PluginDefinition) (a b : String)
    (h : Relation.TransGen (depEdge P) a b) : b ∈ namesOf P := by
  induction h with
  | single h1 =>
    obtain ⟨p, hp, hpn, _⟩ := h1
    exact hpn ▸ List.mem_map_of_mem (·.name) hp
  | tail _ h2 _ =>
    obtain ⟨p, hp, hpn, _⟩ := h2
    exact hpn ▸ List.mem_map_of_mem (·.name) hp

theorem mem_remainingNames (P out : List PluginDefinition) (x : String) :
    x ∈ remainingNames P out ↔ x ∈ namesOf P ∧ x ∉ out.map (fun p => p.name) := by
  unfold remainingNames
  constructor
  · intro hx
    obtain ⟨p, hp, hpn⟩ := List.mem_map.mp hx
    have h1 := List.mem_of_mem_filter hp
    have h2 := List.of_mem_filter hp
    simp only [Bool.not_eq_true', List.any_eq_false] at h2
    refine ⟨hpn ▸ List.mem_map_of_mem (·.name) h1, ?_⟩
    intro hmem
    obtain ⟨q, hq, hqn⟩ := List.mem_map.mp hmem
    have hthis := h2 q hq
    have hqp : q.name = p.name := by rw [hqn, hpn]
    simp [hqp] at hthis
  · rintro ⟨hx1, hx2⟩
    obtain ⟨p, hp, hpn⟩ := List.mem_map.mp hx1
    apply List.mem_map.mpr
    refine ⟨p, List.mem_filter.mpr ⟨hp, ?_⟩, hpn⟩
    simp only [Bool.not_eq_eq_eq_not, Bool.not_true, List.any_eq_false]
    intro q hq
    intro hqn
    apply hx2
    rw [← hpn]
    have : q.name = p.name := by simpa using hqn
    exact this ▸ List.mem_map_of_mem (·.name) hq

theorem resolveDependencies_cycle_error (P : List PluginDefinition)
    (hnd : (namesOf P).Nodup) (hcl : DepClosed P)
    (x0 : String) (hx0 : Relation.TransGen (depEdge P) x0 x0) :
    resolveDependencies P =
      .error (.validation (circularMsg (remainingNames P (kahnRun P)))) ∧
    remainingNames P (kahnRun P) ≠ [] ∧
    (∀ y, (∃ x, Relation.TransGen (depEdge P) x x ∧
        Relation.ReflTransGen (depEdge P) x y) → y ∈ remainingNames P (kahnRun P)) := by
  have ho := kahnRun_out P hnd
  set outN := (kahnRun P).map (fun p => p.name) with houtN
  have hreach_mem : ∀ y, (∃ x, Relation.TransGen (depEdge P) x x ∧
      Relation.ReflTransGen (depEdge P) x y) → y ∈ remainingNames P (kahnRun P) := by
    intro y ⟨x, hxc, hxy⟩
    apply (mem_remainingNames P (kahnRun P) y).mpr
    constructor
    · rcases (Relation.reflTransGen_iff_eq_or_transGen).mp hxy with h | h
      · exact h ▸ transGen_target_names P x x hxc
      · exact transGen_target_names P x y h
    · exact reachable_not_mem P hnd (kahnRun P) ho.order x y hxc hxy
  have hx0mem : x0 ∈ remainingNames P (kahnRun P) :=
    hreach_mem x0 ⟨x0, hx0, Relation.ReflTransGen.refl⟩
  have hne : remainingNames P (kahnRun P) ≠ [] := by
    intro h
    rw [h] at hx0mem
    simp at hx0mem
  refine ⟨?_, hne, hreach_mem⟩
  rw [resolveDependencies_run P (findMissingDep_none_of_closed P hnd hcl)]
  rw [if_pos]
  intro heq
  -- equal lengths would force the unresolved x0 to be in the output
  have hsub : outN ⊆ namesOf P := by
    intro x hx
    obtain ⟨p, hp, hpn⟩ := List.mem_map.mp hx
    exact hpn ▸ List.mem_map_of_mem (·.name) (ho.sub p hp)
  have hx0names : x0 ∈ namesOf P ∧ x0 ∉ outN :=
    (mem_remainingNames P (kahnRun P) x0).mp hx0mem
  have hfin : outN.toFinset = (namesOf P).toFinset := by
    apply Finset.eq_of_subset_of_card_le
    · intro a ha
      rw [List.mem_toFinset] at ha ⊢
      exact hsub ha
    · rw [List.toFinset_card_of_nodup ho.nodup, List.toFinset_card_of_nodup hnd]
      simp only [List.length_map]
      rw [heq]
      simp [namesOf]
  apply hx0names.2
  rw [← List.mem_toFinset, hfin, List.mem_toFinset]
  exact hx0names.1

/-- Conversely, every name the sort leaves unresolved is reachable from
a dependency cycle: iterating "pick an unresolved dependency" inside the
finite unresolved set must revisit a name. -/
theorem unresolved_reachable (P : List PluginDefinition) (hnd : (namesOf P).Nodup)
    (hcl : DepClosed P) (y : String) (hy : y ∈ remainingNames P (kahnRun P)) :
    ∃ x, Relation.TransGen (depEdge P) x x ∧ Relation.ReflTransGen (depEdge P) x y := by
  classical
  have ho := kahnRun_out P hnd
  set S : Finset String := (remainingNames P (kahnRun P)).toFinset with hS
  have hmemS : ∀ z, z ∈ S ↔ z ∈ namesOf P ∧ z ∉ (kahnRun P).map (fun p => p.name) := by
    intro z
    rw [hS, List.mem_toFinset, mem_remainingNames]
  have hstep : ∀ t : {z // z ∈ S}, ∃ d, d ∈ S ∧ depEdge P d t.1 := by
    intro t
    obtain ⟨htn, htout⟩ := (hmemS t.1).mp t.2
    have hnall : ¬(∀ d ∈ depsIn P t.1, d ∈ (kahnRun P).map (fun p => p.name)) := by
      intro hall
      exact htout (ho.closed t.1 htn hall)
    push_neg at hnall
    obtain ⟨d, hd, hdout⟩ := hnall
    refine ⟨d, (hmemS d).mpr ⟨depsIn_subset_names P hcl t.1 d hd, hdout⟩, ?_⟩
    obtain ⟨p, hp, hpn, hdp⟩ := mem_depsIn P t.1 d hd
    exact ⟨p, hp, hpn, hdp⟩
  set F : {z // z ∈ S} → {z // z ∈ S} :=
    fun t => ⟨Classical.choose (hstep t), (Classical.choose_spec (hstep t)).1⟩ with hF
  have hFedge : ∀ t, depEdge P (F t).1 t.1 := by
    intro t
    exact (Classical.choose_spec (hstep t)).2
  have hyS : y ∈ S := by
    rw [hS, List.mem_toFinset]
    exact hy
  set c : Nat → {z // z ∈ S} := fun n => F^[n] ⟨y, hyS⟩ with hc
  have hchain : ∀ n, depEdge P (c (n + 1)).1 (c n).1 := by
    intro n
    have h1 : c (n + 1) = F (c n) := by
      rw [hc]
      exact Function.iterate_succ_apply' F n _
    rw [h1]
    exact hFedge (c n)
  have hpath : ∀ n, Relation.ReflTransGen (depEdge P) (c n).1 y := by
    intro n
    induction n with
    | zero => exact Relation.ReflTransGen.refl
    | succ k ih => exact Relation.ReflTransGen.head (hchain k) ih
  have htrans : ∀ i k, 0 < k → Relation.TransGen (depEdge P) (c (i + k)).1 (c i).1 := by
    intro i k
    induction k with
    | zero => omega
    | succ m ih =>
      intro _
      by_cases hm : 0 < m
      · exact Relation.TransGen.head (hchain (i + m)) (ih hm)
      · have hm0 : m = 0 := by omega
        subst hm0
        exact Relation.TransGen.single (hchain i)
  have hcard : Fintype.card {z // z ∈ S} < Fintype.card (Fin (Fintype.card {z // z ∈ S} + 1)) := by
    simp
  obtain ⟨i, j, hij, hceq⟩ :=
    Fintype.exists_ne_map_eq_of_card_lt (fun n : Fin (Fintype.card {z // z ∈ S} + 1) => c n.1)
      hcard
  rcases Nat.lt_or_ge i.1 j.1 with hlt | hge
  · refine ⟨(c j.1).1, ?_, hpath j.1⟩
    have h1 : Relation.TransGen (depEdge P) (c j.1).1 (c i.1).1 := by
      have := htrans i.1 (j.1 - i.1) (by omega)
      rw [show i.1 + (j.1 - i.1) = j.1 by omega] at this
      exact this
    rw [show (c i.1) = (c j.1) from hceq] at h1
    exact h1
  · have hlt2 : j.1 < i.1 := by
      rcases Nat.lt_or_ge j.1 i.1 with h | h
      · exact h
      · exfalso
        exact hij (Fin.ext (by omega))
    refine ⟨(c i.1).1, ?_, hpath i.1⟩
    have h1 : Relation.TransGen (depEdge P) (c i.1).1 (c j.1).1 := by
      have := htrans j.1 (i.1 - j.1) (by omega)
      rw [show j.1 + (i.1 - j.1) = i.1 by omega] at this
      exact this
    rw [show (c j.1) = (c i.1) from hceq.symm] at h1
    exact h1

/-! ## The no-edges (all dependency lists empty) case -/

theorem addEdges_id_of_no_deps :
    ∀ (P : List PluginDefinition), (∀ p ∈ P, depsOf p = []) →
      ∀ (deg : JsMap Int) (adj : JsMap (List String)), addEdges P deg adj = (deg, adj) := by
  intro P
  induction P with
  | nil => intro _ deg adj; rfl
  | cons p R ih =>
    intro h deg adj
    have h0 : addEdges (p :: R) deg adj =
        addEdges R ((depsOf p).foldl (addEdgeStep p) (deg, adj)).1
          ((depsOf p).foldl (addEdgeStep p) (deg, adj)).2 := by
      simp [addEdges, List.foldl_cons]
    rw [h0, h p (by simp)]
    exact ih (fun q hq => h q (by simp [hq])) deg adj

theorem seedQueue_all_zero (P : List PluginDefinition) (hnd : (namesOf P).Nodup) :
    seedQueue (initInDegree P) = namesOf P := by
  rw [initInDegree_eq P hnd]
  unfold seedQueue
  rw [List.filter_eq_self.mpr]
  · simp [namesOf]
  · intro e he
    obtain ⟨p, _, hpe⟩ := List.mem_map.mp he
    rw [← hpe]
    simp

theorem kahnLoop_no_edges (pm : JsMap PluginDefinition) (adj : JsMap (List String)) :
    ∀ (q : List String) (fuel : Nat) (deg : JsMap Int) (res : List PluginDefinition),
      q.length ≤ fuel → (∀ x ∈ q, mapGet adj x = some ([] : List String)) →
      kahnLoop pm adj fuel q deg res = res ++ q.filterMap (fun x => mapGet pm x) := by
  intro q
  induction q with
  | nil =>
    intro fuel deg res _ _
    cases fuel <;> simp [kahnLoop]
  | cons c rest ih =>
    intro fuel deg res hf hadj
    cases fuel with
    | zero => simp at hf
    | succ f =>
      have hadjc := hadj c (by simp)
      have hpn : processNeighbors ([] : List String) deg rest = (deg, rest) := rfl
      have hunfold : kahnLoop pm adj (f + 1) (c :: rest) deg res =
          kahnLoop pm adj f rest deg
            (match mapGet pm c with
             | some p => res ++ [p]
             | none => res) := by
        simp [kahnLoop, hadjc, hpn]
      rw [hunfold, ih f deg _ (by simpa using hf) (fun x hx => hadj x (by simp [hx]))]
      cases h : mapGet pm c with
      | some p => simp [List.filterMap_cons, h]
      | none => simp [List.filterMap_cons, h]

theorem filterMap_pluginMap (pm : JsMap PluginDefinition) :
    ∀ (l : List PluginDefinition), (∀ p ∈ l, mapGet pm p.name = some p) →
      (l.map (fun p => p.name)).filterMap (fun x => mapGet pm x) = l := by
  intro l
  induction l with
  | nil => intro _; rfl
  | cons p R ih =>
    intro h
    simp only [List.map_cons, List.filterMap_cons, h p (by simp)]
    rw [ih (fun q hq => h q (by simp [hq]))]

theorem resolveDependencies_no_deps (P : List PluginDefinition)
    (hnd : (namesOf P).Nodup) (h : ∀ p ∈ P, depsOf p = []) :
    resolveDependencies P = .ok P := by
  have hfmd : findMissingDep (buildPluginMap P) P = none := by
    apply findMissingDep_eq_none
    intro p hp d hd
    rw [h p hp] at hd
    simp at hd
  rw [resolveDependencies_run P hfmd]
  have hid : addEdges P (initInDegree P) (initAdjacency P) =
      (initInDegree P, initAdjacency P) := addEdges_id_of_no_deps P h _ _
  have hadjall : ∀ x ∈ namesOf P, mapGet (initAdjacency P) x = some ([] : List String) := by
    intro x hx
    obtain ⟨q, hq, hqP, hqn⟩ := find?_name_of_mem P x hx
    rw [initAdjacency_eq P hnd, mapGet_tab, hq]
    rfl
  have hrun : kahnRun P = P := by
    unfold kahnRun
    rw [hid]
    show kahnLoop (buildPluginMap P) (initAdjacency P) P.length
      (seedQueue (initInDegree P)) (initInDegree P) [] = P
    rw [seedQueue_all_zero P hnd]
    rw [kahnLoop_no_edges (buildPluginMap P) (initAdjacency P) (namesOf P) P.length
      (initInDegree P) [] (by simp [namesOf]) hadjall]
    rw [show namesOf P = P.map (fun p => p.name) from rfl]
    rw [filterMap_pluginMap (buildPluginMap P) P (buildPluginMap_get P hnd)]
    simp
  rw [hrun]
  simp

/-! ## Installer-level lemmas -/

theorem installPlugin_plugin (w : GitWorld) (d : PluginDefinition) (dir : Option String) :
    (installPlugin w d dir).status.plugin = d := by
  simp only [installPlugin]
  repeat' split
  all_goals rfl

theorem installPlugin_home (w : GitWorld) (d : PluginDefinition) (dir : Option String) :
    (installPlugin w d dir).world.home = w.home ∧
    (installPlugin w d dir).world.now = w.now ∧
    (installPlugin w d dir).world.writeLockOk = w.writeLockOk ∧
    (installPlugin w d dir).world.cloneFails = w.cloneFails ∧
    (installPlugin w d dir).world.checkoutFails = w.checkoutFails ∧
    (installPlugin w d dir).world.rmFails = w.rmFails ∧
    (installPlugin w d dir).world.headOf = w.headOf := by
  simp only [installPlugin, repairPlugin, verifyInstallation]
  repeat' split
  all_goals simp [doClone, doCheckout, doRm]

theorem repairPlugin_post (w : GitWorld) (d : PluginDefinition) (tp : String)
    (h : (repairPlugin w d tp).err = none) :
    (repairPlugin w d tp).world.fsExists tp = true ∧
    (repairPlugin w d tp).world.commitOf tp = Except.ok d.commit := by
  by_cases hfs : w.fsExists tp = true
  · cases hrm : w.rmFails tp with
    | some e => simp [repairPlugin, hfs, hrm] at h
    | none =>
      cases hcl : w.cloneFails d.repo tp with
      | some e => simp [repairPlugin, doRm, hfs, hrm, hcl] at h
      | none =>
        cases hco : w.checkoutFails tp d.commit with
        | some e => simp [repairPlugin, doRm, doClone, hfs, hrm, hcl, hco] at h
        | none => simp [repairPlugin, doRm, doClone, doCheckout, hfs, hrm, hcl, hco]
  · cases hcl : w.cloneFails d.repo tp with
    | some e => simp [repairPlugin, hfs, hcl] at h
    | none =>
      cases hco : w.checkoutFails tp d.commit with
      | some e => simp [repairPlugin, doClone, hfs, hcl, hco] at h
      | none => simp [repairPlugin, doClone, doCheckout, hfs, hcl, hco]

theorem installPlugin_post (w : GitWorld) (d : PluginDefinition) (dir : Option String)
    (h : (installPlugin w d dir).status.status ≠ StatusKind.failed) :
    (installPlugin w d dir).world.fsExists (resolvePluginPath w.home d.name dir) = true ∧
    (installPlugin w d dir).world.commitOf (resolvePluginPath w.home d.name dir) =
      Except.ok d.commit := by
  set tp := resolvePluginPath w.home d.name dir with htp
  by_cases hfs : w.fsExists tp = true
  · by_cases hver : (verifyInstallation w
      { name := d.name, repo := d.repo, commit := d.commit, installedAt := w.now,
        path := tp }).2 = true
    · cases hco : w.commitOf tp with
      | error e =>
        exfalso
        apply h
        simp [installPlugin, ← htp, hfs, hver, hco]
      | ok cc =>
        by_cases hsame : cc = d.commit
        · have hco2 : w.commitOf tp = Except.ok d.commit := by rw [hco, hsame]
          simp [installPlugin, ← htp, hfs, hver, hco, hsame, hco2]
        · cases hck : w.checkoutFails tp d.commit with
          | some e =>
            exfalso
            apply h
            simp [installPlugin, ← htp, hfs, hver, hco, hsame, hck]
          | none =>
            simp [installPlugin, ← htp, hfs, hver, hco, hsame, hck, doCheckout]
    · cases hrep : (repairPlugin w d tp).err with
      | some e =>
        exfalso
        apply h
        simp [installPlugin, ← htp, hfs, hver, hrep]
      | none =>
        have hpost := repairPlugin_post w d tp hrep
        simp [installPlugin, ← htp, hfs, hver, hrep]
        exact hpost
  · cases hcl : w.cloneFails d.repo tp with
    | some e =>
      exfalso
      apply h
      simp [installPlugin, ← htp, hfs, hcl]
    | none =>
      cases hck : w.checkoutFails tp d.commit with
      | some e =>
        exfalso
        apply h
        simp [installPlugin, ← htp, hfs, hcl, hck, doClone]
      | none =>
        simp [installPlugin, ← htp, hfs, hcl, hck, doClone, doCheckout]

/-- A plugin whose directory exists as a valid repository at the
declared (40-character) commit is skipped: the world is untouched and
only two `git rev-parse` queries run, no clone and no checkout. -/
theorem installPlugin_skip (w : GitWorld) (d : PluginDefinition) (dir : Option String)
    (hfs : w.fsExists (resolvePluginPath w.home d.name dir) = true)
    (hcommit : w.commitOf (resolvePluginPath w.home d.name dir) = Except.ok d.commit)
    (hlen : d.commit.length = 40) :
    (installPlugin w d dir).status.status = StatusKind.skipped ∧
    (installPlugin w d dir).world = w ∧
    (installPlugin w d dir).ops =
      [GitOp.revQuery (resolvePluginPath w.home d.name dir),
       GitOp.revQuery (resolvePluginPath w.home d.name dir)] := by
  simp [installPlugin, verifyInstallation, hfs, hcommit, hlen]

/-- Running `installPlugin` again after a non-failed run skips, provided
the declared commit is a syntactically valid (40-character) revision. -/
theorem installPlugin_idem (w : GitWorld) (d : PluginDefinition) (dir : Option String)
    (hlen : d.commit.length = 40)
    (h : (installPlugin w d dir).status.status ≠ StatusKind.failed) :
    (installPlugin (installPlugin w d dir).world d dir).status.status =
      StatusKind.skipped := by
  obtain ⟨hfs, hco⟩ := installPlugin_post w d dir h
  have hhome : (installPlugin w d dir).world.home = w.home := (installPlugin_home w d dir).1
  have hfs2 : (installPlugin w d dir).world.fsExists
      (resolvePluginPath (installPlugin w d dir).world.home d.name dir) = true := by
    rw [hhome]
    exact hfs
  have hco2 : (installPlugin w d dir).world.commitOf
      (resolvePluginPath (installPlugin w d dir).world.home d.name dir) =
        Except.ok d.commit := by
    rw [hhome]
    exact hco
  exact (installPlugin_skip (installPlugin w d dir).world d dir hfs2 hco2 hlen).1

/-! ## Lock-file upsert lemmas -/

theorem upsertLock_cons (x : InstalledPlugin) (rest : List InstalledPlugin)
    (e : InstalledPlugin) :
    upsertLock (x :: rest) e =
      if x.name == e.name then e :: rest else x :: upsertLock rest e := by
  unfold upsertLock
  by_cases h : (x.name == e.name) = true
  · rw [List.findIdx?_cons]
    simp [h]
  · rw [List.findIdx?_cons]
    have h2 : (x.name == e.name) = false := by simpa using h
    simp only [h2, if_neg, Bool.false_eq_true, not_false_eq_true, List.findIdx?_succ]
    cases hfind : rest.findIdx? (fun p => p.name == e.name) with
    | none => simp [hfind, h2]
    | some i => simp [hfind, h2]

theorem lockLookup_upsert_self (l : List InstalledPlugin) (e : InstalledPlugin) :
    lockLookup (upsertLock l e) e.name = some e := by
  induction l with
  | nil => simp [upsertLock, lockLookup]
  | cons x rest ih =>
    rw [upsertLock_cons]
    by_cases h : (x.name == e.name) = true
    · simp [h, lockLookup, List.find?_cons]
    · have h2 : (x.name == e.name) = false := by simpa using h
      simp only [h2, Bool.false_eq_true, if_neg, not_false_eq_true]
      rw [lockLookup, List.find?_cons]
      simp only [h2]
      exact ih

theorem lockLookup_upsert_ne (l : List InstalledPlugin) (e : InstalledPlugin) (n : String)
    (h : n ≠ e.name) : lockLookup (upsertLock l e) n = lockLookup l n := by
  induction l with
  | nil =>
    have he : (e.name == n) = false := by
      simp
      intro hc
      exact h hc.symm
    simp [upsertLock, lockLookup, List.find?_cons, he]
  | cons x rest ih =>
    rw [upsertLock_cons]
    by_cases hx : (x.name == e.name) = true
    · simp only [hx, if_pos]
      rw [lockLookup, lockLookup, List.find?_cons, List.find?_cons]
      have he : (e.name == n) = false := by
        simp
        intro hc
        exact h hc.symm
      have hxn : (x.name == n) = false := by
        simp at hx ⊢
        rw [hx]
        intro hc
        exact h hc.symm
      simp [he, hxn]
    · have h2 : (x.name == e.name) = false := by simpa using hx
      simp only [h2, Bool.false_eq_true, if_neg, not_false_eq_true]
      rw [lockLookup, lockLookup, List.find?_cons, List.find?_cons]
      cases hxn : (x.name == n) with
      | true => simp [hxn]
      | false =>
        simp only [hxn]
        exact ih

/-! ## `validateConfig` gives pairwise-distinct names -/

theorem validatePluginsLoop_nodup :
    ∀ (ps : List PluginDefinition) (i : Nat) (seen : List String),
      validatePluginsLoop ps i seen = .ok () → seen.Nodup →
      (seen ++ ps.map (fun p => p.name)).Nodup := by
  intro ps
  induction ps with
  | nil =>
    intro i seen _ hsn
    simpa using hsn
  | cons p rest ih =>
    intro i seen h hsn
    unfold validatePluginsLoop at h
    repeat' split at h
    any_goals simp at h
    rename_i h1 h2 h3 h4 h5 h6 h7
    have hnotin : p.name ∉ seen := h5
    have hsn' : (seen ++ [p.name]).Nodup := by
      rw [List.nodup_append]
      exact ⟨hsn, List.nodup_singleton _, by simpa using hnotin⟩
    have := ih (i + 1) (seen ++ [p.name]) h hsn'
    rw [List.append_assoc] at this
    simpa using this

theorem validateConfig_nodup (config : ConfigFile) (h : validateConfig config = .ok ()) :
    (namesOf (config.plugins.getD [])).Nodup := by
  unfold validateConfig at h
  cases hp : config.plugins with
  | none => rw [hp] at h; simp at h
  | some ps =>
    rw [hp] at h
    have h2 : (if ps.length = 0 then
        (Except.error (NecroError.validation "Plugins array must not be empty") :
          Except NecroError Unit)
      else validatePluginsLoop ps 0 []) = .ok () := h
    by_cases hlen : ps.length = 0
    · rw [if_pos hlen] at h2
      simp at h2
    · rw [if_neg hlen] at h2
      have := validatePluginsLoop_nodup ps 0 [] h2 (List.nodup_nil)
      simpa [namesOf] using this

/-! ## The per-plugin loop of the `install` command -/

theorem statusKind_nonfailed_iff (s : StatusKind) :
    (s == StatusKind.success || s == StatusKind.updated || s == StatusKind.skipped) = true ↔
      s ≠ StatusKind.failed := by
  cases s <;> simp

theorem installLoop_statuses (config : ConfigFile) :
    ∀ (ps : List PluginDefinition) (w : GitWorld) (lock : List InstalledPlugin),
      (installLoop config ps w lock).statuses.map (fun s => s.plugin) = ps := by
  intro ps
  induction ps with
  | nil => intro w lock; rfl
  | cons p rest ih =>
    intro w lock
    unfold installLoop
    simp only [List.map_cons]
    rw [installPlugin_plugin]
    rw [ih]

theorem installLoop_frame (config : ConfigFile) :
    ∀ (ps : List PluginDefinition) (w : GitWorld) (lock : List InstalledPlugin) (n : String),
      n ∉ ps.map (fun p => p.name) →
      lockLookup (installLoop config ps w lock).lockPlugins n = lockLookup lock n := by
  intro ps
  induction ps with
  | nil => intro w lock n _; rfl
  | cons p rest ih =>
    intro w lock n hn
    have hn1 : n ≠ p.name := by
      intro h
      exact hn (by simp [h])
    have hn2 : n ∉ rest.map (fun p => p.name) := by
      intro h
      exact hn (by simp [h])
    unfold installLoop
    simp only
    rw [ih]
    · split
      · rw [lockLookup_upsert_ne]
        exact fun h => hn1 (by simp [lockEntryFor] at h; exact h)
      · rfl
    · exact hn2

theorem installLoop_lock_spec (config : ConfigFile) :
    ∀ (ps : List PluginDefinition) (w : GitWorld) (lock : List InstalledPlugin),
      (ps.map (fun p => p.name)).Nodup →
      ∀ p ∈ ps, ∃ st ∈ (installLoop config ps w lock).statuses, st.plugin = p ∧
        (st.status ≠ StatusKind.failed →
          ∃ e, lockLookup (installLoop config ps w lock).lockPlugins p.name = some e ∧
            e.name = p.name ∧ e.repo = p.repo ∧ e.commit = p.commit) ∧
        (st.status = StatusKind.failed →
          lockLookup (installLoop config ps w lock).lockPlugins p.name =
            lockLookup lock p.name) := by
  intro ps
  induction ps with
  | nil => intro w lock _ p hp; simp at hp
  | cons q rest ih =>
    intro w lock hnd p hp
    have hnd2 : (q.name :: rest.map (fun p => p.name)).Nodup := by simpa using hnd
    have hqrest : q.name ∉ rest.map (fun p => p.name) := (List.nodup_cons.mp hnd2).1
    have hndrest : (rest.map (fun p => p.name)).Nodup := (List.nodup_cons.mp hnd2).2
    rcases List.mem_cons.mp hp with hph | hpr
    · subst hph
      refine ⟨(installPlugin w p config.installDir).status, ?_, installPlugin_plugin w p _, ?_, ?_⟩
      · unfold installLoop
        simp
      · intro hnf
        unfold installLoop
        simp only
        rw [installLoop_frame config rest _ _ p.name hqrest]
        rw [if_pos ((statusKind_nonfailed_iff _).mpr hnf)]
        refine ⟨lockEntryFor w config p, ?_, rfl, rfl, rfl⟩
        have := lockLookup_upsert_self lock (lockEntryFor w config p)
        simpa [lockEntryFor] using this
      · intro hf
        unfold installLoop
        simp only
        rw [installLoop_frame config rest _ _ p.name hqrest]
        rw [if_neg]
        simp only [statusKind_nonfailed_iff]
        intro h
        exact h hf
    · have hpq : p.name ≠ q.name := by
        intro h
        exact hqrest (h ▸ List.mem_map_of_mem (·.name) hpr)
      set lock1 := (if (installPlugin w q config.installDir).status.status == StatusKind.success ||
          (installPlugin w q config.installDir).status.status == StatusKind.updated ||
          (installPlugin w q config.installDir).status.status == StatusKind.skipped then
        upsertLock lock (lockEntryFor w config q) else lock) with hlock1
    -- placeholder continues below
      have hlock1_lookup : lockLookup lock1 p.name = lockLookup lock p.name := by
        rw [hlock1]
        split
        · rw [lockLookup_upsert_ne]
          simp [lockEntryFor]
          exact hpq
        · rfl
      obtain ⟨st, hst, hstp, hnf, hf⟩ :=
        ih (installPlugin w q config.installDir).world lock1 hndrest p hpr
      refine ⟨st, ?_, hstp, ?_, ?_⟩
      · unfold installLoop
        simp only [List.mem_cons]
        right
        rw [← hlock1]
        exact hst
      · intro hnf2
        obtain ⟨e, he, h1, h2, h3⟩ := hnf hnf2
        refine ⟨e, ?_, h1, h2, h3⟩
        unfold installLoop
        simp only
        rw [← hlock1]
        exact he
      · intro hf2
        unfold installLoop
        simp only
        rw [← hlock1]
        rw [hf hf2]
        exact hlock1_lookup

/-- A ranking function witnessing that the dependency graph is acyclic
(used to discharge acyclicity at concrete inputs). -/
theorem acyclic_of_rank (P : List PluginDefinition) (rank : String → Nat)
    (h : ∀ p ∈ P, ∀ d ∈ depsOf p, rank d < rank p.name) : Acyclic P := by
  intro x hx
  have hE : ∀ a b, depEdge P a b → rank a < rank b := by
    rintro a b ⟨p, hp, hpn, hd⟩
    exact hpn ▸ h p hp a hd
  have hT : ∀ a b, Relation.TransGen (depEdge P) a b → rank a < rank b := by
    intro a b hab
    induction hab with
    | single h1 => exact hE _ _ h1
    | tail _ h1 ih => exact Nat.lt_trans ih (hE _ _ h1)
  exact absurd (hT x x hx) (lt_irrefl _)

/-! ## `installRun` in the validated case -/

theorem find?_filter_keep {α : Type} (l : List α) (f g : α → Bool)
    (h : ∀ x, g x = true → f x = true) :
    (l.filter f).find? g = l.find? g := by
  induction l with
  | nil => rfl
  | cons x rest ih =>
    by_cases hg : g x = true
    · rw [List.filter_cons_of_pos (h x hg), List.find?_cons_of_pos _ hg,
        List.find?_cons_of_pos _ hg]
    · by_cases hf : f x = true
      · rw [List.filter_cons_of_pos hf, List.find?_cons_of_neg _ hg,
          List.find?_cons_of_neg _ hg]
        exact ih
      · rw [List.filter_cons_of_neg (by simpa using hf), List.find?_cons_of_neg _ hg]
        exact ih

theorem installRun_ok (w : GitWorld) (config : ConfigFile) (lock : LockFile)
    (hok : validateConfig config = Except.ok ()) (hw : w.writeLockOk = true) :
    (installRun w config lock false).statuses =
      (installLoop config (config.plugins.getD []) w lock.plugins).statuses ∧
    (installRun w config lock false).exitCode =
      (if (installLoop config (config.plugins.getD []) w lock.plugins).statuses.countP
          (fun s => s.status == StatusKind.failed) = 0 then 0 else 2) := by
  unfold installRun
  rw [hok, hw]
  exact ⟨rfl, rfl⟩

theorem installRun_statuses_ok (w : GitWorld) (config : ConfigFile) (lock : LockFile)
    (autoClean : Bool) (hok : validateConfig config = Except.ok ()) :
    (installRun w config lock autoClean).statuses =
      (installLoop config (config.plugins.getD []) w lock.plugins).statuses := by
  unfold installRun
  rw [hok]
  by_cases hw : w.writeLockOk = true
  · rw [hw]
    rfl
  · have hw2 : w.writeLockOk = false := by simpa using hw
    rw [hw2]
    rfl

/-- The final lock's plugin list: the loop's upserted list, possibly
filtered down to configured names by `--auto-clean`. -/
theorem installRun_lock_cases (w : GitWorld) (config : ConfigFile) (lock : LockFile)
    (autoClean : Bool) (hok : validateConfig config = Except.ok ()) :
    (installRun w config lock autoClean).lock.plugins =
        (installLoop config (config.plugins.getD []) w lock.plugins).lockPlugins ∨
      (installRun w config lock autoClean).lock.plugins =
        (installLoop config (config.plugins.getD []) w lock.plugins).lockPlugins.filter
          (fun p => ((config.plugins.getD []).map (fun q => q.name)).contains p.name) := by
  simp only [installRun, hok]
  split <;> (dsimp only; split)
  all_goals first | exact Or.inl rfl | exact Or.inr rfl

/-! ## Claim theorems -/

/-- C1: the claim FAILS on the code. `install.ts` never invokes
`resolveDependencies`: it iterates `config.plugins` in declaration
order. A configuration whose dependency graph is a two-cycle — which
the resolver itself rejects with a circular-dependency error — passes
`validateConfig`, is reconciled plugin by plugin (clone and checkout
operations in declaration order) and exits 0; and on an acyclic
configuration declared dependent-first the run reconciles the dependent
BEFORE its dependency, diverging from the resolver's order. -/
theorem claim_C1 :
    resolveDependencies [alphaDef, betaDef] =
      Except.error (NecroError.validation (circularMsg ["alpha", "beta"])) ∧
    validateConfig cyclicConfig = Except.ok () ∧
    cyclicConfig.plugins = some [alphaDef, betaDef] ∧
    (installRun okWorld cyclicConfig emptyLock false).exitCode = 0 ∧
    (installRun okWorld cyclicConfig emptyLock false).ops =
      [GitOp.clone "https://github.com/user/alpha" "/plugins/alpha",
       GitOp.checkout "/plugins/alpha" alphaDef.commit,
       GitOp.clone "https://github.com/user/beta" "/plugins/beta",
       GitOp.checkout "/plugins/beta" betaDef.commit] ∧
    (resolveDependencies (orderedConfig.plugins.getD [])).map
        (fun l => l.map (fun p => p.name)) = Except.ok ["plenary", "telescope"] ∧
    (installRun okWorld orderedConfig emptyLock false).statuses.map
        (fun s => s.plugin.name) = ["telescope", "plenary"] :=
  ⟨rfl, rfl, rfl, rfl, rfl, rfl, rfl⟩

/-- C2: for every declared set with pairwise-distinct names in which
every dependency name refers to a declared plugin and the dependency
graph is acyclic, `resolveDependencies` returns a permutation of the
declared plugins in which every (transitive) dependency appears strictly
before its dependent. -/
theorem claim_C2 (P : List PluginDefinition) (hnd : (namesOf P).Nodup)
    (hcl : DepClosed P) (hac : Acyclic P) :
    ∃ out, resolveDependencies P = .ok out ∧ List.Perm out P ∧
      ∀ a b, Relation.TransGen (depEdge P) a b →
        (out.map (fun p => p.name)).indexOf a < (out.map (fun p => p.name)).indexOf b := by
  refine ⟨kahnRun P, resolveDependencies_acyclic_ok P hnd hcl hac,
    kahnRun_perm P hnd hcl hac, ?_⟩
  intro a b h
  have hb : b ∈ (kahnRun P).map (fun p => p.name) :=
    kahnRun_complete P hnd hcl hac b (transGen_target_names P a b h)
  exact (index_lt_of_transGen P hnd (kahnRun P) (kahnRun_out P hnd).order a b h hb).2

/-- C2 witness: the two-plugin chain `telescope → plenary`, declared
dependent-first, resolves successfully with `plenary` first. -/
theorem claim_C2_witness :
    ∃ out, resolveDependencies [telescopeDef, plenaryDef] = .ok out ∧
      List.Perm out [telescopeDef, plenaryDef] ∧
      ∀ a b, Relation.TransGen (depEdge [telescopeDef, plenaryDef]) a b →
        (out.map (fun p => p.name)).indexOf a < (out.map (fun p => p.name)).indexOf b :=
  claim_C2 [telescopeDef, plenaryDef] (by decide) (by unfold DepClosed; decide)
    (acyclic_of_rank [telescopeDef, plenaryDef]
      (fun s => if s = "plenary" then 0 else 1) (by decide))

/-- C3: for every declared set with pairwise-distinct names and declared
dependencies whose graph contains a cycle (self-loops included),
`resolveDependencies` throws a `ValidationError` whose message joins the
names of every plugin left unresolved — exactly the plugins reachable
from some cycle, in particular all cycle members — not just one of
them. -/
theorem claim_C3 (P : List PluginDefinition) (hnd : (namesOf P).Nodup)
    (hcl : DepClosed P)
    (hcyc : ∃ x, Relation.TransGen (depEdge P) x x) :
    ∃ ns, resolveDependencies P = .error (.validation (circularMsg ns)) ∧ ns ≠ [] ∧
      ∀ y, y ∈ ns ↔ ∃ x, Relation.TransGen (depEdge P) x x ∧
        Relation.ReflTransGen (depEdge P) x y := by
  obtain ⟨x0, hx0⟩ := hcyc
  obtain ⟨herr, hne, hforward⟩ := resolveDependencies_cycle_error P hnd hcl x0 hx0
  exact ⟨remainingNames P (kahnRun P), herr, hne,
    fun y => ⟨fun hy => unresolved_reachable P hnd hcl y hy, hforward y⟩⟩

/-- C3 witness: a self-dependency (`ouro` listing itself) is rejected as
a cycle, alongside an unrelated resolvable plugin. -/
theorem claim_C3_witness :
    ∃ ns, resolveDependencies [selfDepDef, plenaryDef] =
        .error (.validation (circularMsg ns)) ∧ ns ≠ [] ∧
      ∀ y, y ∈ ns ↔ ∃ x, Relation.TransGen (depEdge [selfDepDef, plenaryDef]) x x ∧
        Relation.ReflTransGen (depEdge [selfDepDef, plenaryDef]) x y :=
  claim_C3 [selfDepDef, plenaryDef] (by decide) (by unfold DepClosed; decide)
    ⟨"ouro", Relation.TransGen.single ⟨selfDepDef, by simp, rfl, by decide⟩⟩

/-- C4: plugins that are ready from the start keep their declaration
order — a declared set with no dependencies at all resolves to itself
unchanged — and the spec's concrete instance `[A, B, C, D]`, each of
`A`, `B`, `C` depending only on `D`, resolves to `[D, A, B, C]`. -/
theorem claim_C4 :
    (∀ P : List PluginDefinition, (namesOf P).Nodup → (∀ p ∈ P, depsOf p = []) →
      resolveDependencies P = .ok P) ∧
    (resolveDependencies [abcdA, abcdB, abcdC, abcdD]).map
        (fun l => l.map (fun p => p.name)) = .ok ["D", "A", "B", "C"] := by
  constructor
  · exact resolveDependencies_no_deps
  · rfl

/-- C4 witness: two independent plugins resolve in declaration order. -/
theorem claim_C4_witness :
    resolveDependencies [alphaOnlyDef, plenaryDef] = .ok [alphaOnlyDef, plenaryDef] :=
  claim_C4.1 [alphaOnlyDef, plenaryDef] (by decide) (by decide)

/-- C5 (amended): reconciling a plugin whose directory exists as a valid
repository already at the declared (40-character) target revision is
`skipped`, with no clone and no checkout and the world untouched; and
running reconciliation twice with no external change yields `skipped` on
the second run for every plugin whose first run was non-`failed`. -/
theorem claim_C5 :
    (∀ (w : GitWorld) (d : PluginDefinition) (dir : Option String),
      w.fsExists (resolvePluginPath w.home d.name dir) = true →
      w.commitOf (resolvePluginPath w.home d.name dir) = Except.ok d.commit →
      d.commit.length = 40 →
      (installPlugin w d dir).status.status = StatusKind.skipped ∧
      (installPlugin w d dir).world = w ∧
      ∀ op ∈ (installPlugin w d dir).ops,
        (∀ u p, op ≠ GitOp.clone u p) ∧ (∀ p c, op ≠ GitOp.checkout p c)) ∧
    (∀ (w : GitWorld) (d : PluginDefinition) (dir : Option String),
      d.commit.length = 40 →
      (installPlugin w d dir).status.status ≠ StatusKind.failed →
      (installPlugin (installPlugin w d dir).world d dir).status.status =
        StatusKind.skipped) := by
  constructor
  · intro w d dir hfs hco hlen
    obtain ⟨h1, h2, h3⟩ := installPlugin_skip w d dir hfs hco hlen
    refine ⟨h1, h2, ?_⟩
    intro op hop
    rw [h3] at hop
    rcases List.mem_cons.mp hop with h | h
    · subst h
      exact ⟨fun u p => by simp, fun p c => by simp⟩
    · simp at h
      subst h
      exact ⟨fun u p => by simp, fun p c => by simp⟩
  · intro w d dir hlen h
    exact installPlugin_idem w d dir hlen h

/-- C5 counterexample: with a persistently unreachable repository the
first run fails and the second run fails again — not `skipped` — even
though no external state changed. -/
theorem claim_C5_counterexample :
    (installPlugin cloneFailWorld alphaOnlyDef none).status.status = StatusKind.failed ∧
    (installPlugin (installPlugin cloneFailWorld alphaOnlyDef none).world
        alphaOnlyDef none).status.status = StatusKind.failed ∧
    StatusKind.failed ≠ StatusKind.skipped :=
  ⟨rfl, rfl, by decide⟩

/-- C5 witness: a plugin already at its declared commit is skipped, and
a freshly installed plugin is skipped on the second run. -/
theorem claim_C5_witness :
    (installPlugin alphaInstalledWorld alphaOnlyDef (some "/plugins")).status.status =
      StatusKind.skipped ∧
    (installPlugin (installPlugin okWorld alphaOnlyDef (some "/plugins")).world
        alphaOnlyDef (some "/plugins")).status.status = StatusKind.skipped := by
  constructor
  · exact (claim_C5.1 alphaInstalledWorld alphaOnlyDef (some "/plugins") (by decide)
      (by rfl) (by decide)).1
  · exact claim_C5.2 okWorld alphaOnlyDef (some "/plugins") (by decide) (by decide)

/-- C6: `verifyInstallation` returns false exactly when the plugin's
directory does not exist, or the current-revision query fails, or the
reported revision string does not have length 40; otherwise it returns
true. -/
theorem claim_C6 (w : GitWorld) (installed : InstalledPlugin) :
    (verifyInstallation w installed).2 = false ↔
      (w.fsExists installed.path = false ∨
       (∃ e, w.commitOf installed.path = Except.error e) ∨
       (∃ c, w.commitOf installed.path = Except.ok c ∧ c.length ≠ 40)) := by
  by_cases hfs : w.fsExists installed.path = true
  · cases hco : w.commitOf installed.path with
    | error e =>
      simp [verifyInstallation, hfs, hco]
    | ok c =>
      by_cases hlen : c.length = 40
      · simp [verifyInstallation, hfs, hco, hlen]
      · simp [verifyInstallation, hfs, hco, hlen]
  · have hfs2 : w.fsExists installed.path = false := by simpa using hfs
    simp [verifyInstallation, hfs2]

/-- C7: a `failed` verdict does not halt the run: every reconciliation
attributes its status to its own plugin and never rethrows
(`installPlugin` is total, every VCS failure mapping to a `failed`
status), the install command still emits one status per declared plugin
in declaration order, and — when the lock write-back succeeds — the run
exits 2 exactly when at least one plugin failed. -/
theorem claim_C7 (w : GitWorld) (config : ConfigFile) (lock : LockFile)
    (hok : validateConfig config = Except.ok ()) (hw : w.writeLockOk = true) :
    (∀ (w2 : GitWorld) (d : PluginDefinition) (dir : Option String),
      (installPlugin w2 d dir).status.plugin = d) ∧
    (installRun w config lock false).statuses.map (fun s => s.plugin) =
      config.plugins.getD [] ∧
    ((installRun w config lock false).exitCode = 2 ↔
      ∃ st ∈ (installRun w config lock false).statuses,
        st.status = StatusKind.failed) := by
  obtain ⟨hstat, hexit⟩ := installRun_ok w config lock hok hw
  refine ⟨installPlugin_plugin, ?_, ?_⟩
  · rw [hstat, installLoop_statuses]
  · rw [hstat, hexit]
    by_cases h0 : (installLoop config (config.plugins.getD []) w lock.plugins).statuses.countP
        (fun s => s.status == StatusKind.failed) = 0
    · rw [if_pos h0]
      constructor
      · intro h
        exact absurd h (by decide)
      · rintro ⟨st, hst, hfail⟩
        have := List.countP_eq_zero.mp h0 st hst
        simp [hfail] at this
    · rw [if_neg h0]
      refine ⟨fun _ => ?_, fun _ => rfl⟩
      by_contra hc
      push_neg at hc
      exact h0 (List.countP_eq_zero.mpr (fun a ha => by simpa using hc a ha))

/-- C7 witness: a world where every clone fails, on a two-plugin
configuration — both plugins receive statuses and the run exits 2. -/
theorem claim_C7_witness :
    (∀ (w2 : GitWorld) (d : PluginDefinition) (dir : Option String),
      (installPlugin w2 d dir).status.plugin = d) ∧
    (installRun cloneFailWorld mixedConfig emptyLock false).statuses.map (fun s => s.plugin) =
      mixedConfig.plugins.getD [] ∧
    ((installRun cloneFailWorld mixedConfig emptyLock false).exitCode = 2 ↔
      ∃ st ∈ (installRun cloneFailWorld mixedConfig emptyLock false).statuses,
        st.status = StatusKind.failed) :=
  claim_C7 cloneFailWorld mixedConfig emptyLock rfl rfl

/-- C8: after a validated run of the install command, every declared
plugin has a status; when that status is non-`failed` the final lock
file holds an entry under the plugin's name carrying its declared repo
and commit (added, or replaced at its existing index), and when it is
`failed` the lock entry under that name is exactly what it was before
the run. -/
theorem claim_C8 (w : GitWorld) (config : ConfigFile) (lock : LockFile) (autoClean : Bool)
    (hok : validateConfig config = Except.ok ()) :
    ∀ p ∈ config.plugins.getD [],
      ∃ st ∈ (installRun w config lock autoClean).statuses, st.plugin = p ∧
        (st.status ≠ StatusKind.failed →
          ∃ e, lockLookup (installRun w config lock autoClean).lock.plugins p.name = some e ∧
            e.name = p.name ∧ e.repo = p.repo ∧ e.commit = p.commit) ∧
        (st.status = StatusKind.failed →
          lockLookup (installRun w config lock autoClean).lock.plugins p.name =
            lockLookup lock.plugins p.name) := by
  intro p hp
  have hnd : ((config.plugins.getD []).map (fun q => q.name)).Nodup := by
    simpa [namesOf] using validateConfig_nodup config hok
  obtain ⟨st, hst, hstp, hnf, hf⟩ :=
    installLoop_lock_spec config (config.plugins.getD []) w lock.plugins hnd p hp
  have hlookEq : lockLookup (installRun w config lock autoClean).lock.plugins p.name =
      lockLookup (installLoop config (config.plugins.getD []) w lock.plugins).lockPlugins
        p.name := by
    rcases installRun_lock_cases w config lock autoClean hok with h | h
    · rw [h]
    · rw [h]
      unfold lockLookup
      apply find?_filter_keep
      intro x hx
      have hxn : x.name = p.name := by simpa using hx
      rw [hxn]
      exact List.elem_eq_true_of_mem (List.mem_map_of_mem (fun q => q.name) hp)
  refine ⟨st, ?_, hstp, ?_, ?_⟩
  · rw [installRun_statuses_ok w config lock autoClean hok]
    exact hst
  · intro h
    obtain ⟨e, he, h1, h2, h3⟩ := hnf h
    exact ⟨e, by rw [hlookEq]; exact he, h1, h2, h3⟩
  · intro h
    rw [hlookEq]
    exact hf h

/-- C8 witness: a clean one-plugin run — the status exists and, being
non-failed, the lock carries the plugin's name, repo and commit. -/
theorem claim_C8_witness :
    ∃ st ∈ (installRun okWorld alphaConfig emptyLock false).statuses,
      st.plugin = alphaOnlyDef ∧
      (st.status ≠ StatusKind.failed →
        ∃ e, lockLookup (installRun okWorld alphaConfig emptyLock false).lock.plugins
            alphaOnlyDef.name = some e ∧
          e.name = alphaOnlyDef.name ∧ e.repo = alphaOnlyDef.repo ∧
          e.commit = alphaOnlyDef.commit) ∧
      (st.status = StatusKind.failed →
        lockLookup (installRun okWorld alphaConfig emptyLock false).lock.plugins
            alphaOnlyDef.name = lockLookup emptyLock.plugins alphaOnlyDef.name) :=
  claim_C8 okWorld alphaConfig emptyLock false rfl alphaOnlyDef (by simp [alphaConfig])

/-- C9 (amended): `isValidPluginName` accepts exactly the strings of
length between 1 and 100 whose characters are all letters, digits,
underscore, dot or hyphen and whose FIRST character is a letter, digit
or underscore — so a name may begin neither with a hyphen (as the claim
says) nor with a dot (which the claim omits). -/
theorem claim_C9 (name : String) :
    isValidPluginName name = true ↔
      (name.toList ≠ [] ∧ name.toList.length ≤ 100 ∧
       (∀ c ∈ name.toList, c.isAlphanum = true ∨ c = '_' ∨ c = '.' ∨ c = '-') ∧
       (∀ c, name.toList.head? = some c → (c.isAlphanum = true ∨ c = '_'))) := by
  unfold isValidPluginName
  cases hnl : name.toList with
  | nil => simp
  | cons c rest =>
    simp only [List.length_cons, List.head?_cons, Option.some.injEq, ne_eq,
      reduceCtorEq, not_false_eq_true, true_and, Bool.and_eq_true,
      decide_eq_true_eq, List.all_eq_true, List.mem_cons, forall_eq_or_imp]
    constructor
    · rintro ⟨⟨hcw, hlen⟩, hall⟩
      have hcw2 : c.isAlphanum = true ∨ c = '_' := by simpa [isWordChar] using hcw
      refine ⟨by omega, ⟨?_, ?_⟩, ?_⟩
      · rcases hcw2 with h | h
        · exact Or.inl h
        · exact Or.inr (Or.inl h)
      · intro d hd
        have hdw : (isWordChar d = true ∨ d = '.') ∨ d = '-' := by simpa using hall d hd
        rcases hdw with (h | h) | h
        · have h3 : d.isAlphanum = true ∨ d = '_' := by simpa [isWordChar] using h
          rcases h3 with h4 | h4
          · exact Or.inl h4
          · exact Or.inr (Or.inl h4)
        · exact Or.inr (Or.inr (Or.inl h))
        · exact Or.inr (Or.inr (Or.inr h))
      · rintro d rfl
        exact hcw2
    · rintro ⟨hlen, ⟨hc, hrest⟩, hhead⟩
      have hcw : isWordChar c = true := by
        rcases hhead c rfl with h | h <;> simp [isWordChar, h]
      refine ⟨⟨hcw, by omega⟩, ?_⟩
      intro d hd
      rcases hrest d hd with h | h | h | h <;> simp [isWordChar, h]

/-- C9 counterexample: the claim's predicate accepts `".a"` (non-empty,
short, only dot and letter, no leading hyphen), but `PLUGIN_NAME_REGEX`
requires a leading word character and rejects the leading dot. -/
theorem claim_C9_counterexample :
    specValidPluginName ".a" = true ∧ isValidPluginName ".a" = false := by
  exact ⟨by decide, by decide⟩

/-- C10: `validateConfig` rejects a configuration whose `plugins` field
is missing or empty with a `ValidationError`, and the install command
then exits with configuration-error status 1 having attempted no plugin
operation and produced no outcome. -/
theorem claim_C10 :
    (∀ config : ConfigFile, config.plugins = none →
      validateConfig config =
        .error (.validation "Configuration must contain a \"plugins\" array")) ∧
    (∀ config : ConfigFile, config.plugins = some [] →
      validateConfig config = .error (.validation "Plugins array must not be empty")) ∧
    (∀ (w : GitWorld) (config : ConfigFile) (lock : LockFile) (autoClean : Bool),
      (config.plugins = none ∨ config.plugins = some []) →
      (installRun w config lock autoClean).exitCode = 1 ∧
      (installRun w config lock autoClean).statuses = [] ∧
      (installRun w config lock autoClean).ops = []) := by
  refine ⟨?_, ?_, ?_⟩
  · intro config h
    unfold validateConfig
    rw [h]
  · intro config h
    unfold validateConfig
    rw [h]
    rfl
  · intro w config lock autoClean h
    have herr : ∃ msg, validateConfig config = .error (.validation msg) := by
      rcases h with h | h
      · exact ⟨_, by unfold validateConfig; rw [h]⟩
      · exact ⟨_, by unfold validateConfig; rw [h]; rfl⟩
    obtain ⟨msg, hmsg⟩ := herr
    unfold installRun
    rw [hmsg]
    exact ⟨rfl, rfl, rfl⟩

/-- C10 witness: the two rejected shapes at concrete configurations. -/
theorem claim_C10_witness :
    validateConfig { plugins := none, installDir := none } =
      .error (.validation "Configuration must contain a \"plugins\" array") ∧
    validateConfig { plugins := some [], installDir := none } =
      .error (.validation "Plugins array must not be empty") ∧
    (installRun okWorld { plugins := some [], installDir := none } emptyLock false).exitCode
      = 1 :=
  ⟨claim_C10.1 _ rfl, claim_C10.2.1 _ rfl,
    (claim_C10.2.2 okWorld { plugins := some [], installDir := none } emptyLock false
      (Or.inr rfl)).1⟩

end Necromancer
